import Mathlib

/-!
Verification of the robust-data-processor pipeline.

This file embeds the ingestion API (tenant validation, payload
normalization, queue hand-off with retry) and the worker (PII redaction
via sequential regex substitution passes, batch processing with partial
failure reporting) as executable Lean definitions, and proves the
specified properties about them.

Machine conventions used throughout:
- strings are modelled as `String` and `List Char` (the worker regexes
  operate on `List Char`);
- time durations are modelled in milliseconds as `Nat` (the source
  sleeps `0.1 * 2 ** attempt` seconds, modelled as `100 * 2 ^ attempt`);
- external effects (queue sends, database writes, JSON parsing results,
  clock readings, generated UUIDs) are modelled as oracle parameters, so
  each run of the embedded code is a pure function of its oracles.
-/

/-! ### ASCII character classes used by the source regexes -/

def isDigitA (c : Char) : Bool := '0' ≤ c && c ≤ '9'

def isAlphaA (c : Char) : Bool := ('a' ≤ c && c ≤ 'z') || ('A' ≤ c && c ≤ 'Z')

/-- Word characters in the sense of the regex metacharacter for word
boundaries: letters, digits and underscore. -/
def isWordA (c : Char) : Bool := isAlphaA c || isDigitA c || c = '_'

/-- Whitespace characters recognised by both the regex whitespace class
and the string strip method: space, tab, newline, carriage return,
vertical tab, form feed. -/
def isSpaceA (c : Char) : Bool :=
  c = ' ' || c = '\t' || c = '\n' || c = '\r' || c = '\x0b' || c = '\x0c'

/-! ### Python str.strip -/

def pyStripL (l : List Char) : List Char :=
  ((l.dropWhile isSpaceA).reverse.dropWhile isSpaceA).reverse

def pyStripS (s : String) : String := ⟨pyStripL s.data⟩

/-! ### src/api/app.py : validate_tenant_id -/

/-- Characters allowed by the tenant id character class: alphanumeric
characters, hyphens and underscores. -/
def isTenantChar (c : Char) : Bool := isAlphaA c || isDigitA c || c = '-' || c = '_'

/-- Embedding of `validate_tenant_id` from src/api/app.py.  The argument
is `none` when the caller passed Python `None` (a missing field).  The
result mirrors the `(bool, error)` tuple returned by the source. -/
def validate_tenant_id (tenant : Option String) : Bool × Option String :=
  match tenant with
  | none => (false, some "tenant_id is required")
  | some s =>
    if s = "" then (false, some "tenant_id is required")
    else
      let t := pyStripS s
      if t.length = 0 then (false, some "tenant_id cannot be empty")
      else if 64 < t.length then (false, some "tenant_id must be less than 64 characters")
      else if t.data.all isTenantChar then (true, none)
      else (false, some "tenant_id must only contain alphanumeric characters, hyphens, or underscores")

/-! ### src/api/app.py : normalize_payload -/

structure LogRecord where
  tenant_id : String
  log_id : String
  text : String
  source : String
  received_at : String
  text_length : Nat
  deriving Repr, DecidableEq

/-- Embedding of `normalize_payload` from src/api/app.py.  `text` is
`none` when the incoming value is Python `None`; the source evaluates
`text if text else ""` and `len(text) if text else 0`, so falsy values
(absent or empty text) normalize to the empty string with length 0.
`now` is the clock oracle standing for `get_current_timestamp()`. -/
def normalize_payload (tenant_id log_id : String) (text : Option String)
    (source : String) (now : String) : LogRecord :=
  { tenant_id := pyStripS tenant_id
    log_id := log_id
    text := match text with
      | none => ""
      | some t => if t = "" then "" else t
    source := source
    received_at := now
    text_length := match text with
      | none => 0
      | some t => if t = "" then 0 else t.length }

/-! ### src/api/app.py : send_to_sqs -/

/-- Outcome of one `sqs_client.send_message` call, as seen by the
exception handlers in the source: success, a ClientError carrying an
error code and message, a BotoCoreError, or any other exception. -/
inductive SendOutcome where
  | ok (messageId : String)
  | clientError (code msg : String)
  | botoError (msg : String)
  | exn (msg : String)
  deriving Repr, DecidableEq

/-- Result of `send_to_sqs`: the `(success, message_id, error)` triple of
the source, extended with the observable trace of the run: the backoff
sleeps performed (in milliseconds) and the number of `send_message`
network calls issued. -/
structure SqsResult where
  ok : Bool
  messageId : Option String
  err : Option String
  sleeps : List Nat
  sendCalls : Nat
  deriving Repr, DecidableEq

structure SqsCfg where
  queueUrl : Option String
  freshId : String
  deriving Repr, DecidableEq

/-- The module initializes `sqs_client` exactly when `SQS_QUEUE_URL` is
set, so client presence is a function of the configuration. -/
def sqsClientInit (cfg : SqsCfg) : Bool := cfg.queueUrl.isSome

/-- Error codes the source refuses to retry. -/
def nonRetryable (code : String) : Bool :=
  code = "InvalidParameterValue" || code = "ValidationError" || code = "AccessDenied"

/-- The `for attempt in range(max_retries)` loop of `send_to_sqs`.
`k` is the number of attempts still available; the current attempt index
is `maxRetries - k`.  `oracle` gives the outcome of the attempt at each
index.  Sleeps are `100 * 2 ^ attempt` milliseconds, mirroring
`time.sleep(0.1 * (2 ** attempt))`, and happen only when another attempt
remains, mirroring `if attempt < max_retries - 1`. -/
def sendLoop (oracle : Nat → SendOutcome) (maxRetries : Nat) : Nat → SqsResult
  | 0 => ⟨false, none, some "Max retries exceeded", [], 0⟩
  | k + 1 =>
    let attempt := maxRetries - (k + 1)
    match oracle attempt with
    | .ok mid => ⟨true, some mid, none, [], 1⟩
    | .clientError code msg =>
      if nonRetryable code then
        ⟨false, none, some ("SQS validation error: " ++ msg), [], 1⟩
      else if 0 < k then
        let r := sendLoop oracle maxRetries k
        ⟨r.ok, r.messageId, r.err, (100 * 2 ^ attempt) :: r.sleeps, r.sendCalls + 1⟩
      else
        ⟨false, none, some ("SQS error after " ++ toString maxRetries ++ " attempts: " ++ msg), [], 1⟩
    | .botoError msg =>
      if 0 < k then
        let r := sendLoop oracle maxRetries k
        ⟨r.ok, r.messageId, r.err, (100 * 2 ^ attempt) :: r.sleeps, r.sendCalls + 1⟩
      else
        ⟨false, none, some ("AWS SDK error: " ++ msg), [], 1⟩
    | .exn msg => ⟨false, none, some ("Unexpected error: " ++ msg), [], 1⟩

/-- Embedding of `send_to_sqs` from src/api/app.py.  With no queue URL
configured the call runs in local mode: success, a locally tagged
message id, no sleeps and no network calls.  Otherwise the retry loop
runs with the given attempt oracle. -/
def send_to_sqs (cfg : SqsCfg) (oracle : Nat → SendOutcome) (maxRetries : Nat) : SqsResult :=
  match cfg.queueUrl with
  | none => ⟨true, some ("local-" ++ cfg.freshId), none, [], 0⟩
  | some _ =>
    if sqsClientInit cfg then sendLoop oracle maxRetries maxRetries
    else ⟨false, none, some "SQS client not initialized", [], 0⟩

/-- An attempt outcome the source classifies as transient (retried with
backoff): a ClientError whose code is not in the non-retryable list, or
a BotoCoreError. -/
def transientOutcome : SendOutcome → Bool
  | .clientError code _ => !nonRetryable code
  | .botoError _ => true
  | _ => false

/-! ### src/worker/handler.py : the regex engine

The four phone patterns, the SSN pattern, the email pattern and the
credit card pattern of `redact_sensitive_data` are all concatenations of
two kinds of items: a greedy bounded repetition of a single character
class, and a word-boundary assertion.  `RItem` captures exactly these,
and `matchItems` is a backtracking matcher with the leftmost-greedy
semantics of the source regex engine: at a given start position it
explores repetition counts from largest to smallest and returns the
first full match found. -/

inductive RItem where
  | cls (p : Char → Bool) (lo : Nat) (hi : Option Nat)
  | bnd

/-- Length of the longest prefix made of characters satisfying `p`. -/
def countLeading (p : Char → Bool) : List Char → Nat
  | [] => 0
  | c :: rest => if p c then countLeading p rest + 1 else 0

/-- Largest repetition count available for a class item at the current
position: the run of satisfying characters, capped by the upper bound. -/
def boundedMax (p : Char → Bool) (hi : Option Nat) (s : List Char) : Nat :=
  match hi with
  | none => countLeading p s
  | some h => min (countLeading p s) h

/-- Word-character test lifted to an optional character; the absent
character at either end of the input is a non-word position. -/
def isWordO : Option Char → Bool
  | none => false
  | some c => isWordA c

/-- The character preceding the position reached after consuming `a`,
given that `prev` preceded `a`. -/
def prevAfter (prev : Option Char) (a : List Char) : Option Char :=
  match a.getLast? with
  | some c => some c
  | none => prev

/-- Measure used for the termination of `matchItems`: the headroom of the
first item (how many repetition counts are still to be explored). -/
def headroom : List RItem → List Char → Nat
  | .cls p _ hi :: _, s => boundedMax p hi s
  | _, _ => 0

theorem boundedMax_le_countLeading (p : Char → Bool) (hi : Option Nat) (s : List Char) :
    boundedMax p hi s ≤ countLeading p s := by
  cases hi with
  | none => exact Nat.le_refl _
  | some h => exact Nat.min_le_left _ _

theorem headroom_dec (p : Char → Bool) (lo : Nat) (hi : Option Nat) (rest : List RItem)
    (s : List Char) (h : 0 < boundedMax p hi s) :
    headroom (RItem.cls p lo (some (boundedMax p hi s - 1)) :: rest) s <
      headroom (RItem.cls p lo hi :: rest) s := by
  cases hi with
  | none => simp only [headroom, boundedMax] at h ⊢; omega
  | some hh => simp only [headroom, boundedMax] at h ⊢; omega

/-- Backtracking matcher.  `prev` is the character just before the
current position (for word-boundary tests).  On success, returns the
character preceding the remainder together with the remainder of the
input after the match.  A class item first tries its largest available
count; on failure of the continuation it retries with the upper bound
lowered, which explores counts in decreasing (greedy) order exactly as
the source regex engine does. -/
def matchItems : List RItem → Option Char → List Char → Option (Option Char × List Char)
  | [], prev, s => some (prev, s)
  | .bnd :: rest, prev, s =>
    if isWordO prev != isWordO s.head? then matchItems rest prev s else none
  | .cls p lo hi :: rest, prev, s =>
    let m := boundedMax p hi s
    if lo ≤ m then
      match matchItems rest (prevAfter prev (s.take m)) (s.drop m) with
      | some r => some r
      | none =>
        if lo < m then matchItems (.cls p lo (some (m - 1)) :: rest) prev s
        else none
    else none
termination_by re _ s => (re.length, headroom re s)
decreasing_by
  · simp_wf
    omega
  · simp_wf
    omega
  · simp_wf
    right
    rename_i hlt
    exact headroom_dec p lo hi rest s (Nat.lt_of_le_of_lt (Nat.zero_le lo) hlt)

/-- The replacement marker of `redact_sensitive_data`, as a character
list. -/
def markerL : List Char := "[REDACTED]".data

/-- The substitution scan of `re.sub`: at each position, attempt a match;
on success emit the marker and resume just after the matched text (with
`prev` set to the last matched input character, since later
word-boundary tests look at the original input, not the replacement);
on failure emit the current character and advance by one.  The guard
`rem.length < s.length` is the progress check; it always holds for the
patterns in this file because each of them must consume at least one
character. -/
def subA (re : List RItem) (prev : Option Char) (s : List Char) : List Char :=
  match s with
  | [] => []
  | c :: rest =>
    match matchItems re prev (c :: rest) with
    | some (p', rem) =>
      if h : rem.length < (c :: rest).length then markerL ++ subA re p' rem
      else c :: subA re (some c) rest
    | none => c :: subA re (some c) rest
termination_by s.length
decreasing_by
  all_goals first
  | exact h
  | simp

/-- One substitution pass over a whole string fragment, mirroring
`re.sub(pattern, marker, text)`. -/
def subL (re : List RItem) (s : List Char) : List Char := subA re none s

/-! ### src/worker/handler.py : the seven patterns of redact_sensitive_data -/

def sepDots (c : Char) : Bool := c = '-' || c = '.' || isSpaceA c

def sepDash (c : Char) : Bool := c = '-' || isSpaceA c

def emailLocalChar (c : Char) : Bool :=
  isAlphaA c || isDigitA c || c = '.' || c = '_' || c = '%' || c = '+' || c = '-'

def emailDomainChar (c : Char) : Bool := isAlphaA c || isDigitA c || c = '.' || c = '-'

/-- The top-level-domain class of the email pattern is written
`[A-Z|a-z]` in the source, so it contains the pipe character as well as
the letters. -/
def emailTldChar (c : Char) : Bool := isAlphaA c || c = '|'

/-- Phone shape 1: international prefix with separators. -/
def phonePattern1 : List RItem :=
  [.cls (fun c => c = '+') 1 (some 1), .cls isDigitA 1 (some 2),
   .cls sepDots 0 (some 1), .cls isDigitA 3 (some 3),
   .cls sepDots 0 (some 1), .cls isDigitA 3 (some 3),
   .cls sepDots 0 (some 1), .cls isDigitA 4 (some 4)]

/-- Phone shape 2: parenthesized area code. -/
def phonePattern2 : List RItem :=
  [.cls (fun c => c = '(') 1 (some 1), .cls isDigitA 3 (some 3),
   .cls (fun c => c = ')') 1 (some 1), .cls isSpaceA 0 none,
   .cls isDigitA 3 (some 3), .cls sepDots 0 (some 1), .cls isDigitA 4 (some 4)]

/-- Phone shape 3: bare ten digits with optional separators, delimited by
word boundaries. -/
def phonePattern3 : List RItem :=
  [.bnd, .cls isDigitA 3 (some 3), .cls sepDots 0 (some 1),
   .cls isDigitA 3 (some 3), .cls sepDots 0 (some 1), .cls isDigitA 4 (some 4), .bnd]

/-- Phone shape 4: bare seven digits with an optional separator,
delimited by word boundaries. -/
def phonePattern4 : List RItem :=
  [.bnd, .cls isDigitA 3 (some 3), .cls sepDots 0 (some 1), .cls isDigitA 4 (some 4), .bnd]

/-- SSN-shaped sequences: 3-2-4 digit groups with optional separators. -/
def ssnPattern : List RItem :=
  [.bnd, .cls isDigitA 3 (some 3), .cls sepDash 0 (some 1),
   .cls isDigitA 2 (some 2), .cls sepDash 0 (some 1), .cls isDigitA 4 (some 4), .bnd]

/-- Email addresses: local part, at sign, domain, dot, top-level label of
two or more characters. -/
def emailPattern : List RItem :=
  [.bnd, .cls emailLocalChar 1 none, .cls (fun c => c = '@') 1 (some 1),
   .cls emailDomainChar 1 none, .cls (fun c => c = '.') 1 (some 1),
   .cls emailTldChar 2 none, .bnd]

/-- Credit-card-shaped sequences: four groups of four digits with
optional separators. -/
def ccPattern : List RItem :=
  [.bnd, .cls isDigitA 4 (some 4), .cls sepDash 0 (some 1),
   .cls isDigitA 4 (some 4), .cls sepDash 0 (some 1),
   .cls isDigitA 4 (some 4), .cls sepDash 0 (some 1), .cls isDigitA 4 (some 4), .bnd]

/-- The seven substitution passes of `redact_sensitive_data`, in the
order the source applies them: the four phone shapes, then SSN, then
email, then credit card. -/
def allPatterns : List (List RItem) :=
  [phonePattern1, phonePattern2, phonePattern3, phonePattern4,
   ssnPattern, emailPattern, ccPattern]

/-- All seven passes applied in order to a character list. -/
def redactL (s : List Char) : List Char :=
  allPatterns.foldl (fun acc re => subL re acc) s

/-- Embedding of `redact_sensitive_data` from src/worker/handler.py for
string input.  The `if not text` early return is the empty-string
branch. -/
def redact_sensitive_data (text : String) : String :=
  if text = "" then text else ⟨redactL text.data⟩

/-- Embedding of `redact_sensitive_data` for an optional (possibly
`None`) argument: `None` is falsy, so it is returned unchanged. -/
def redactOpt (text : Option String) : Option String :=
  match text with
  | none => none
  | some s => some (redact_sensitive_data s)

/-! ### src/worker/handler.py : message processing and the batch handler -/

/-- JSON-like values, standing for the Python values a message body or a
parsed payload can take. -/
inductive JVal where
  | null
  | bool (b : Bool)
  | num (n : Int)
  | str (s : String)
  | arr (xs : List JVal)
  | obj (kvs : List (String × JVal))

/-- Dictionary lookup, `payload.get(key)`: `none` when the key is
absent.  Later bindings shadow earlier ones, as in a Python dict built
from a JSON object. -/
def jLookup (kvs : List (String × JVal)) (k : String) : Option JVal :=
  match kvs.reverse.find? (fun kv => kv.fst = k) with
  | some kv => some kv.snd
  | none => none

/-- Python truthiness of a JSON-like value. -/
def jTruthy : JVal → Bool
  | .null => false
  | .bool b => b
  | .num n => !(n = 0)
  | .str s => !(s = "")
  | .arr xs => !xs.isEmpty
  | .obj kvs => !kvs.isEmpty

def jTruthyO : Option JVal → Bool
  | none => false
  | some v => jTruthy v

/-- Outcome of one `table.put_item` call, as seen by the exception
handlers of `save_to_dynamodb`. -/
inductive PutOutcome where
  | ok
  | clientError (code msg : String)
  | botoError (msg : String)
  | exn (msg : String)

/-- The item written by `save_to_dynamodb`.  Tenant id, log id and
source are stored as the values found in the payload (the source imposes
no type on them beyond truthiness). -/
structure DynamoItem where
  tenant_id : JVal
  log_id : JVal
  source : JVal
  original_text : String
  modified_data : String
  processed_at : String

/-- Oracles for a worker run: whether the table is configured, the
outcome of each attempted write, the JSON parser (`none` stands for a
JSONDecodeError) and the clock. -/
structure WorkerEnv where
  tableConfigured : Bool
  putItem : DynamoItem → PutOutcome
  parse : String → Option JVal
  now : String

/-- Embedding of `save_to_dynamodb` from src/worker/handler.py. -/
def save_to_dynamodb (env : WorkerEnv) (item : DynamoItem) : Bool × Option String :=
  if !env.tableConfigured then (false, some "DynamoDB table not configured")
  else
    match env.putItem item with
    | .ok => (true, none)
    | .clientError code _ => (false, some ("DynamoDB error: " ++ code))
    | .botoError msg => (false, some ("AWS SDK error: " ++ msg))
    | .exn msg => (false, some ("Unexpected error: " ++ msg))

/-- Embedding of `process_message` from src/worker/handler.py.  A string
body is parsed as JSON (a parse error is the JSONDecodeError branch); a
non-string body is used as the payload directly.  A payload that is not
an object makes `payload.get` raise, which the catch-all turns into a
failure; likewise a truthy non-string `text` makes `len(text)` or
`re.sub` raise.  Missing or falsy `tenant_id` or `log_id` fail with the
dedicated messages.  Otherwise the text is redacted and the derived
record is written. -/
def process_message (env : WorkerEnv) (body : JVal) : Bool × Option String :=
  let payloadE : Except String JVal :=
    match body with
    | .str s =>
      match env.parse s with
      | some v => .ok v
      | none => .error "Invalid JSON: parse error"
    | v => .ok v
  match payloadE with
  | .error e => (false, some e)
  | .ok payload =>
    match payload with
    | .obj kvs =>
      let tenant := jLookup kvs "tenant_id"
      let logId := jLookup kvs "log_id"
      let textV := (jLookup kvs "text").getD (.str "")
      let sourceV := (jLookup kvs "source").getD (.str "unknown")
      if !jTruthyO tenant then (false, some "Missing tenant_id")
      else if !jTruthyO logId then (false, some "Missing log_id")
      else
        match textV with
        | .str text =>
          let modified := redact_sensitive_data text
          let item : DynamoItem :=
            { tenant_id := tenant.getD .null
              log_id := logId.getD .null
              source := sourceV
              original_text := text
              modified_data := modified
              processed_at := env.now }
          match save_to_dynamodb env item with
          | (true, _) => (true, none)
          | (false, e) => (false, e)
        | _ => (false, some "Processing error: text is not a string")
    | _ => (false, some "Processing error: payload has no attribute get")

/-- One record of the batch event: its queue-assigned message id (absent
when the record carries no messageId key) and its body.  A record with
no body key has body `JVal.null`, which is what `record.get` returns. -/
structure SqsRec where
  messageId : Option String
  body : JVal

structure ItemFailure where
  itemIdentifier : Option String
  deriving DecidableEq

structure BatchResult where
  batchItemFailures : List ItemFailure
  deriving DecidableEq

/-- Embedding of `handler` from src/worker/handler.py.  The event is
`none` when it has no Records key (`event.get("Records", [])`).  Each
record is processed independently; a failed record appends its message
id to the failure list, and the partial batch response is returned. -/
def handler (env : WorkerEnv) (event : Option (List SqsRec)) : BatchResult :=
  let records := event.getD []
  let failures := records.foldl
    (fun acc record =>
      if (process_message env record.body).fst then acc
      else acc ++ [⟨record.messageId⟩])
    []
  ⟨failures⟩

/-! ### Declarative match semantics

`Sat re prev cons nxt` says that the items of `re` can consume exactly
the characters `cons`, where `prev` is the character just before `cons`
in the surrounding text and `nxt` the character just after (absent at
the ends of the text).  This is the local, assignment-style notion of a
regex match; the matcher is proved sound and complete for it below. -/

def hiOk : Option Nat → Nat → Prop
  | none, _ => True
  | some h, n => n ≤ h

def Sat : List RItem → Option Char → List Char → Option Char → Prop
  | [], _, cs, _ => cs = []
  | .bnd :: rest, prev, cs, nxt =>
    (isWordO prev != isWordO (cs.head?.or nxt)) = true ∧ Sat rest prev cs nxt
  | .cls p lo hi :: rest, prev, cs, nxt =>
    ∃ a b, cs = a ++ b ∧ (∀ c ∈ a, p c = true) ∧ lo ≤ a.length ∧ hiOk hi a.length ∧
      Sat rest (prevAfter prev a) b nxt

/-- No match of `re` anywhere in `s`, where `prev` is the character just
before `s` in the surrounding text: no split of `s` carries a match with
the contexts that split induces. -/
def NoMatchC (re : List RItem) (prev : Option Char) (s : List Char) : Prop :=
  ∀ pre cons rest, s = pre ++ cons ++ rest →
    ¬ Sat re (prevAfter prev pre) cons rest.head?

/-- Executable scan deciding that the matcher finds nothing at any
position of `s` (given the preceding character `prev`). -/
def noMatchFrom (re : List RItem) (prev : Option Char) : List Char → Bool
  | [] => (matchItems re prev []).isNone
  | c :: rest => (matchItems re prev (c :: rest)).isNone && noMatchFrom re (some c) rest

/-- Sum of the repetition lower bounds: every match consumes at least
this many characters. -/
def minLen : List RItem → Nat
  | [] => 0
  | .bnd :: rest => minLen rest
  | .cls _ lo _ :: rest => lo + minLen rest

/-- Union of the character classes of `re`: every character consumed by
a match satisfies it. -/
def clsChars : List RItem → Char → Bool
  | [], _ => false
  | .bnd :: rest, c => clsChars rest c
  | .cls p _ _ :: rest, c => p c || clsChars rest c

/-- Structural description of one substitution pass: the output is the
input with each (leftmost, non-overlapping) matched chunk replaced by
the marker and every other character kept.  `keep` records that the
matcher fails at a kept position; `repl` records a successful match
consuming at least one character. -/
inductive SubDecomp (re : List RItem) : Option Char → List Char → List Char → Prop where
  | nil : ∀ prev, SubDecomp re prev [] []
  | keep : ∀ prev c rest out, matchItems re prev (c :: rest) = none →
      SubDecomp re (some c) rest out →
      SubDecomp re prev (c :: rest) (c :: out)
  | repl : ∀ prev c rest p' rem out, matchItems re prev (c :: rest) = some (p', rem) →
      rem.length < (c :: rest).length →
      SubDecomp re p' rem out →
      SubDecomp re prev (c :: rest) (markerL ++ out)

/-- The first character of a pass pattern either is a boundary assertion
or draws from a class of non-word characters; used when reasoning about
the character following a replaced chunk. -/
def LeadOk (re : List RItem) : Prop :=
  (∃ rest, re = .bnd :: rest) ∨
  (∃ p lo hi rest, re = .cls p lo hi :: rest ∧ 1 ≤ lo ∧
    ∀ c, p c = true → isWordA c = false)

/-- The marker without its opening bracket: the tail of `markerL`.
Matches that would sit inside a freshly inserted marker are matches
inside this list (they cannot contain either bracket). -/
def coreR : List Char := "REDACTED]".data

/-- The side conditions under which the preservation argument runs, all
satisfied by each of the seven patterns: no bracket characters in any
class, a positive minimum match length, no match inside the marker core,
boundary-free or boundary-delimited shape, and a lead item that is a
boundary or a non-word class. -/
def PatOk (P : List RItem) : Prop :=
  clsChars P '[' = false ∧ clsChars P ']' = false ∧ 1 ≤ minLen P ∧
  NoMatchC P (some '[') coreR ∧
  ((∀ it ∈ P, it ≠ RItem.bnd) ∨
    (P.head? = some RItem.bnd ∧ P.getLast? = some RItem.bnd)) ∧
  LeadOk P

/-! ## Theorems -/

/-! ### Validator (claim C3) -/

theorem pyStripS_empty : pyStripS "" = "" := rfl

/-- Claim C3: tenant-id validation succeeds exactly on strings that,
after trimming, are non-empty, at most 64 characters long and consist
only of alphanumerics, hyphens and underscores; every failure carries a
human-readable reason. -/
theorem validate_tenant_id_correct (s : String) :
    ((validate_tenant_id (some s)).fst = true ↔
      (pyStripS s ≠ "" ∧ (pyStripS s).length ≤ 64 ∧
        ∀ c ∈ (pyStripS s).data, isTenantChar c = true)) ∧
    ((validate_tenant_id (some s)).fst = false →
      (validate_tenant_id (some s)).snd ≠ none) := by
  by_cases hs : s = ""
  · subst hs
    simp [validate_tenant_id, pyStripS_empty]
  · have hempty : (pyStripS s).length = 0 ↔ pyStripS s = "" := by
      show (pyStripS s).data.length = 0 ↔ _
      rw [List.length_eq_zero]
      constructor
      · intro h
        apply String.ext
        exact h
      · intro h
        rw [h]
    by_cases h0 : (pyStripS s).length = 0
    · have hv : validate_tenant_id (some s) =
          (false, some "tenant_id cannot be empty") := by
        simp [validate_tenant_id, hs, h0]
      rw [hv]
      constructor
      · simp
        intro hne _
        exact absurd (hempty.mp h0) hne
      · intro _
        simp
    · by_cases h64 : 64 < (pyStripS s).length
      · have hv : validate_tenant_id (some s) =
            (false, some "tenant_id must be less than 64 characters") := by
          simp [validate_tenant_id, hs, h0, h64]
        rw [hv]
        constructor
        · simp
          intro _ hle
          exact absurd hle (by omega)
        · intro _
          simp
      · by_cases hall : (pyStripS s).data.all isTenantChar
        · have hv : validate_tenant_id (some s) = (true, none) := by
            simp [validate_tenant_id, hs, h0, h64, hall]
          rw [hv]
          constructor
          · simp
            refine ⟨fun h => (h0 (hempty.mpr h)).elim, by omega, ?_⟩
            exact fun c hc => List.all_eq_true.mp hall c hc
          · simp
        · have hv : validate_tenant_id (some s) =
              (false, some "tenant_id must only contain alphanumeric characters, hyphens, or underscores") := by
            simp [validate_tenant_id, hs, h0, h64, hall]
          rw [hv]
          constructor
          · simp
            intro _ _
            rw [List.all_eq_true] at hall
            push_neg at hall
            simpa using hall
          · intro _
            simp

/-- Witness for claim C3 at a concrete accepted input and a concrete
rejected input. -/
theorem validate_tenant_id_correct_witness :
    (validate_tenant_id (some "acme-1")).fst = true ∧
    (validate_tenant_id (some "bad tenant!")).fst = false := by
  constructor
  · exact (validate_tenant_id_correct "acme-1").1.mpr (by decide)
  · have h := (validate_tenant_id_correct "bad tenant!").1
    by_cases hb : (validate_tenant_id (some "bad tenant!")).fst = true
    · exact absurd (h.mp hb) (by decide)
    · simpa using hb

/-! ### Normalizer (claim C9) -/

/-- Claim C9: every normalized record satisfies that its stored
text-length equals the length of its stored text, including when the
incoming text is absent or empty. -/
theorem normalize_payload_text_length (tenant_id log_id : String)
    (text : Option String) (source now : String) :
    (normalize_payload tenant_id log_id text source now).text_length =
      (normalize_payload tenant_id log_id text source now).text.length := by
  cases text with
  | none => rfl
  | some t =>
    by_cases ht : t = "" <;> simp [normalize_payload, ht]

/-! ### Queue producer (claims C5, C7, C4, C8) -/

/-- Claim C5: with no queue endpoint configured, every enqueue call
reports success, returns a message id carrying the local prefix, and
performs no sleeps and no network sends. -/
theorem send_to_sqs_local_mode (cfg : SqsCfg) (oracle : Nat → SendOutcome)
    (maxRetries : Nat) (h : cfg.queueUrl = none) :
    send_to_sqs cfg oracle maxRetries =
      ⟨true, some ("local-" ++ cfg.freshId), none, [], 0⟩ := by
  obtain ⟨url, fid⟩ := cfg
  simp only at h
  subst h
  rfl

/-- Witness for claim C5. -/
theorem send_to_sqs_local_mode_witness :
    send_to_sqs ⟨none, "abc"⟩ (fun _ => SendOutcome.exn "boom") 3 =
      ⟨true, some "local-abc", none, [], 0⟩ :=
  send_to_sqs_local_mode ⟨none, "abc"⟩ (fun _ => SendOutcome.exn "boom") 3 rfl

theorem send_to_sqs_configured (cfg : SqsCfg) (oracle : Nat → SendOutcome)
    (maxRetries : Nat) (q : String) (h : cfg.queueUrl = some q) :
    send_to_sqs cfg oracle maxRetries = sendLoop oracle maxRetries maxRetries := by
  obtain ⟨url, fid⟩ := cfg
  simp only at h
  subst h
  simp [send_to_sqs, sqsClientInit]

/-- Claim C7: a classified non-retryable error fails immediately, with
no sleep and a single send attempt; an unexpected exception during the
send is converted into a generic failure result instead of being
propagated. -/
theorem send_to_sqs_fail_fast (cfg : SqsCfg) (oracle : Nat → SendOutcome)
    (q : String) (h : cfg.queueUrl = some q) :
    (∀ code msg, oracle 0 = .clientError code msg → nonRetryable code = true →
      send_to_sqs cfg oracle 3 =
        ⟨false, none, some ("SQS validation error: " ++ msg), [], 1⟩) ∧
    (∀ msg, oracle 0 = .exn msg →
      send_to_sqs cfg oracle 3 =
        ⟨false, none, some ("Unexpected error: " ++ msg), [], 1⟩) := by
  rw [send_to_sqs_configured cfg oracle 3 q h]
  constructor
  · intro code msg ho hnr
    simp [sendLoop, ho, hnr]
  · intro msg ho
    simp [sendLoop, ho]

/-- Witness for claim C7. -/
theorem send_to_sqs_fail_fast_witness :
    send_to_sqs ⟨some "u", "f"⟩
        (fun _ => SendOutcome.clientError "AccessDenied" "nope") 3 =
      ⟨false, none, some "SQS validation error: nope", [], 1⟩ ∧
    send_to_sqs ⟨some "u", "f"⟩ (fun _ => SendOutcome.exn "boom") 3 =
      ⟨false, none, some "Unexpected error: boom", [], 1⟩ := by
  constructor
  · exact (send_to_sqs_fail_fast ⟨some "u", "f"⟩
      (fun _ => SendOutcome.clientError "AccessDenied" "nope") "u" rfl).1
      "AccessDenied" "nope" rfl rfl
  · exact (send_to_sqs_fail_fast ⟨some "u", "f"⟩
      (fun _ => SendOutcome.exn "boom") "u" rfl).2 "boom" rfl

theorem toString_three : toString (3 : Nat) = "3" := rfl

/-- One-level unfolding of the retry loop at a successor index. -/
theorem sendLoop_succ (oracle : Nat → SendOutcome) (mr k : Nat) :
    sendLoop oracle mr (k + 1) =
      match oracle (mr - (k + 1)) with
      | .ok mid => ⟨true, some mid, none, [], 1⟩
      | .clientError code msg =>
        if nonRetryable code then
          ⟨false, none, some ("SQS validation error: " ++ msg), [], 1⟩
        else if 0 < k then
          ⟨(sendLoop oracle mr k).ok, (sendLoop oracle mr k).messageId,
           (sendLoop oracle mr k).err,
           (100 * 2 ^ (mr - (k + 1))) :: (sendLoop oracle mr k).sleeps,
           (sendLoop oracle mr k).sendCalls + 1⟩
        else
          ⟨false, none, some ("SQS error after " ++ toString mr ++ " attempts: " ++ msg), [], 1⟩
      | .botoError msg =>
        if 0 < k then
          ⟨(sendLoop oracle mr k).ok, (sendLoop oracle mr k).messageId,
           (sendLoop oracle mr k).err,
           (100 * 2 ^ (mr - (k + 1))) :: (sendLoop oracle mr k).sleeps,
           (sendLoop oracle mr k).sendCalls + 1⟩
        else ⟨false, none, some ("AWS SDK error: " ++ msg), [], 1⟩
      | .exn msg => ⟨false, none, some ("Unexpected error: " ++ msg), [], 1⟩ := by
  rw [sendLoop]

/-- A transient outcome with a remaining attempt produces one backoff
sleep and recurses. -/
theorem sendLoop_transient_step (oracle : Nat → SendOutcome) (k : Nat)
    (htr : transientOutcome (oracle (3 - (k + 2))) = true) :
    sendLoop oracle 3 (k + 2) =
      ⟨(sendLoop oracle 3 (k + 1)).ok, (sendLoop oracle 3 (k + 1)).messageId,
       (sendLoop oracle 3 (k + 1)).err,
       (100 * 2 ^ (3 - (k + 2))) :: (sendLoop oracle 3 (k + 1)).sleeps,
       (sendLoop oracle 3 (k + 1)).sendCalls + 1⟩ := by
  have hshow : sendLoop oracle 3 (k + 2) = sendLoop oracle 3 ((k + 1) + 1) := rfl
  rw [hshow, sendLoop_succ]
  have hidx : 3 - (k + 1 + 1) = 3 - (k + 2) := by omega
  rw [hidx]
  cases ho : oracle (3 - (k + 2)) with
  | ok mid => rw [ho] at htr; simp [transientOutcome] at htr
  | exn m => rw [ho] at htr; simp [transientOutcome] at htr
  | clientError c m =>
    rw [ho] at htr
    simp only [transientOutcome, Bool.not_eq_true'] at htr
    simp [htr]
  | botoError m => simp

/-- Claim C4: with the default bound of 3 attempts, two transient
failures followed by a success sleep exactly 100ms and then 200ms and
report success; three transient outcomes sleep the same two backoffs and
report failure carrying the last error detail. -/
theorem send_to_sqs_retry_policy (cfg : SqsCfg) (oracle : Nat → SendOutcome)
    (q : String) (hq : cfg.queueUrl = some q)
    (h0 : transientOutcome (oracle 0) = true)
    (h1 : transientOutcome (oracle 1) = true) :
    (∀ mid, oracle 2 = .ok mid →
      send_to_sqs cfg oracle 3 = ⟨true, some mid, none, [100, 200], 3⟩) ∧
    (∀ code msg, oracle 2 = .clientError code msg → nonRetryable code = false →
      send_to_sqs cfg oracle 3 =
        ⟨false, none, some ("SQS error after 3 attempts: " ++ msg), [100, 200], 3⟩) ∧
    (∀ msg, oracle 2 = .botoError msg →
      send_to_sqs cfg oracle 3 =
        ⟨false, none, some ("AWS SDK error: " ++ msg), [100, 200], 3⟩) := by
  rw [send_to_sqs_configured cfg oracle 3 q hq]
  have s1 : sendLoop oracle 3 3 =
      ⟨(sendLoop oracle 3 2).ok, (sendLoop oracle 3 2).messageId,
       (sendLoop oracle 3 2).err, 100 :: (sendLoop oracle 3 2).sleeps,
       (sendLoop oracle 3 2).sendCalls + 1⟩ := by
    have := sendLoop_transient_step oracle 1 (by simpa using h0)
    simpa using this
  have s2 : sendLoop oracle 3 2 =
      ⟨(sendLoop oracle 3 1).ok, (sendLoop oracle 3 1).messageId,
       (sendLoop oracle 3 1).err, 200 :: (sendLoop oracle 3 1).sleeps,
       (sendLoop oracle 3 1).sendCalls + 1⟩ := by
    have := sendLoop_transient_step oracle 0 (by simpa using h1)
    simpa using this
  refine ⟨?_, ?_, ?_⟩
  · intro mid ho2
    have s3 : sendLoop oracle 3 1 = ⟨true, some mid, none, [], 1⟩ := by
      rw [show sendLoop oracle 3 1 = sendLoop oracle 3 (0 + 1) from rfl, sendLoop_succ]
      simp [ho2]
    rw [s1, s2, s3]
  · intro code msg ho2 hnr
    have s3 : sendLoop oracle 3 1 =
        ⟨false, none, some ("SQS error after 3 attempts: " ++ msg), [], 1⟩ := by
      rw [show sendLoop oracle 3 1 = sendLoop oracle 3 (0 + 1) from rfl, sendLoop_succ]
      simp [ho2, hnr, toString_three]
    rw [s1, s2, s3]
  · intro msg ho2
    have s3 : sendLoop oracle 3 1 =
        ⟨false, none, some ("AWS SDK error: " ++ msg), [], 1⟩ := by
      rw [show sendLoop oracle 3 1 = sendLoop oracle 3 (0 + 1) from rfl, sendLoop_succ]
      simp [ho2]
    rw [s1, s2, s3]

/-- Witness for claim C4. -/
theorem send_to_sqs_retry_policy_witness :
    send_to_sqs ⟨some "u", "f"⟩
        (fun n => if n = 0 then SendOutcome.botoError "a"
          else if n = 1 then SendOutcome.clientError "Throttling" "b"
          else SendOutcome.ok "mid") 3 =
      ⟨true, some "mid", none, [100, 200], 3⟩ := by
  exact (send_to_sqs_retry_policy ⟨some "u", "f"⟩
    (fun n => if n = 0 then SendOutcome.botoError "a"
      else if n = 1 then SendOutcome.clientError "Throttling" "b"
      else SendOutcome.ok "mid") "u" rfl (by decide) (by decide)).1 "mid" rfl

theorem sendLoop_one_sleeps (oracle : Nat → SendOutcome) :
    (sendLoop oracle 3 1).sleeps = [] := by
  rw [show sendLoop oracle 3 1 = sendLoop oracle 3 (0 + 1) from rfl, sendLoop_succ]
  cases ho : oracle (3 - (0 + 1)) with
  | ok mid => rfl
  | clientError c m =>
    by_cases hnr : nonRetryable c
    · simp [hnr]
    · simp [hnr]
  | botoError m => rfl
  | exn m => rfl

/-- Claim C8 (amended): the total backoff the producer can sleep with the
default 3-attempt policy is at most 300ms (100ms then 200ms; no sleep
follows the final attempt), and exactly 300ms when every attempt fails
transiently. -/
theorem send_to_sqs_backoff_bound (cfg : SqsCfg) (oracle : Nat → SendOutcome)
    (q : String) (hq : cfg.queueUrl = some q) :
    (send_to_sqs cfg oracle 3).sleeps.sum ≤ 300 ∧
    (transientOutcome (oracle 0) = true → transientOutcome (oracle 1) = true →
      transientOutcome (oracle 2) = true →
      (send_to_sqs cfg oracle 3).sleeps.sum = 300) := by
  rw [send_to_sqs_configured cfg oracle 3 q hq]
  have hone := sendLoop_one_sleeps oracle
  have h2bound : (sendLoop oracle 3 2).sleeps = [] ∨ (sendLoop oracle 3 2).sleeps = [200] := by
    rw [show sendLoop oracle 3 2 = sendLoop oracle 3 (1 + 1) from rfl, sendLoop_succ]
    have hidx : (3 : Nat) - (1 + 1) = 1 := rfl
    rw [hidx]
    cases ho : oracle 1 with
    | ok mid => left; rfl
    | clientError c m =>
      by_cases hnr : nonRetryable c
      · left; simp [hnr]
      · right; simp [hnr, hone]
    | botoError m => right; simp [hone]
    | exn m => left; rfl
  have h3bound : (sendLoop oracle 3 3).sleeps = [] ∨
      (sendLoop oracle 3 3).sleeps = 100 :: (sendLoop oracle 3 2).sleeps := by
    rw [show sendLoop oracle 3 3 = sendLoop oracle 3 (2 + 1) from rfl, sendLoop_succ]
    have hidx : (3 : Nat) - (2 + 1) = 0 := rfl
    rw [hidx]
    cases ho : oracle 0 with
    | ok mid => left; rfl
    | clientError c m =>
      by_cases hnr : nonRetryable c
      · left; simp [hnr]
      · right; simp [hnr]
    | botoError m => right; simp
    | exn m => left; rfl
  constructor
  · rcases h3bound with h3 | h3
    · rw [h3]; simp
    · rw [h3]
      rcases h2bound with h2 | h2 <;> rw [h2] <;> simp
  · intro t0 t1 t2
    have s1 := sendLoop_transient_step oracle 1 (by simpa using t0)
    have s2 := sendLoop_transient_step oracle 0 (by simpa using t1)
    simp only [show (1 : Nat) + 2 = 3 from rfl, show (0 : Nat) + 2 = 2 from rfl,
      show (1 : Nat) + 1 = 2 from rfl, show (0 : Nat) + 1 = 1 from rfl,
      show (3 : Nat) - 3 = 0 from rfl, show (3 : Nat) - 2 = 1 from rfl] at s1 s2
    rw [s1]
    simp only [s2, hone]
    norm_num

/-- Witness for claim C8 (amended version). -/
theorem send_to_sqs_backoff_bound_witness :
    (send_to_sqs ⟨some "u", "f"⟩ (fun _ => SendOutcome.botoError "x") 3).sleeps.sum = 300 := by
  have h := send_to_sqs_backoff_bound ⟨some "u", "f"⟩ (fun _ => SendOutcome.botoError "x") "u" rfl
  exact h.2 (by decide) (by decide) (by decide)

/-- Counterexample for claim C8 as stated: a maximal run of the retry
loop (all attempts failing transiently) sleeps a total of 300ms, not
approximately 700ms; the sum of the backoff intervals is 100 + 200, not
100 + 200 + 400, because no sleep follows the final attempt. -/
theorem send_to_sqs_backoff_not_700 :
    (send_to_sqs ⟨some "u", "f"⟩ (fun _ => SendOutcome.botoError "x") 3).sleeps.sum = 300 ∧
    (send_to_sqs ⟨some "u", "f"⟩ (fun _ => SendOutcome.botoError "x") 3).sleeps.sum ≠ 700 := by
  constructor
  · rfl
  · decide

/-! ### Batch handler (claims C2, C10) -/

theorem handler_foldl_eq (env : WorkerEnv) (records : List SqsRec) (acc : List ItemFailure) :
    records.foldl
      (fun acc record =>
        if (process_message env record.body).fst then acc
        else acc ++ [⟨record.messageId⟩])
      acc =
    acc ++ (records.filter (fun r => !(process_message env r.body).fst)).map
      (fun r => (⟨r.messageId⟩ : ItemFailure)) := by
  induction records generalizing acc with
  | nil => simp
  | cons r rest ih =>
    cases hfst : (process_message env r.body).fst with
    | true => simp [List.foldl_cons, hfst, ih, List.filter_cons]
    | false =>
      simp only [List.foldl_cons, hfst, Bool.false_eq_true, if_false]
      rw [ih]
      simp [List.filter_cons, hfst, List.append_assoc]

theorem handler_eq (env : WorkerEnv) (records : List SqsRec) :
    handler env (some records) =
      ⟨(records.filter (fun r => !(process_message env r.body).fst)).map
        (fun r => (⟨r.messageId⟩ : ItemFailure))⟩ := by
  show (⟨records.foldl _ []⟩ : BatchResult) = _
  rw [handler_foldl_eq]
  simp

/-- Claim C2: the failure list the batch handler returns consists of
exactly the queue-assigned message ids of the failed records (those
whose processing returns failure) in batch order and no others, its
length is the number of failed records, and the handling of a batch
decomposes over concatenation, so one record's failure never affects the
processing of the others. -/
theorem handler_partial_batch (env : WorkerEnv) (records : List SqsRec) :
    (handler env (some records)).batchItemFailures =
      (records.filter (fun r => !(process_message env r.body).fst)).map
        (fun r => (⟨r.messageId⟩ : ItemFailure)) ∧
    (handler env (some records)).batchItemFailures.length =
      records.countP (fun r => !(process_message env r.body).fst) ∧
    (∀ l1 l2, records = l1 ++ l2 →
      (handler env (some records)).batchItemFailures =
        (handler env (some l1)).batchItemFailures ++
          (handler env (some l2)).batchItemFailures) := by
  refine ⟨by rw [handler_eq], ?_, ?_⟩
  · rw [handler_eq]
    simp only [List.length_map]
    rw [List.countP_eq_length_filter]
  · intro l1 l2 hsplit
    subst hsplit
    rw [handler_eq, handler_eq, handler_eq]
    simp [List.filter_append]

/-- Witness for claim C2: a concrete batch of three messages in which
exactly the middle one fails (its body is not valid JSON) yields exactly
that message id as the failure list. -/
theorem handler_partial_batch_witness :
    (handler
      { tableConfigured := true, putItem := fun _ => PutOutcome.ok,
        parse := fun s => if s = "bad" then none
          else some (JVal.obj [("tenant_id", JVal.str "t"), ("log_id", JVal.str "l")]),
        now := "ts" }
      (some
        [⟨some "m1", JVal.str "good"⟩, ⟨some "m2", JVal.str "bad"⟩,
         ⟨some "m3", JVal.str "good"⟩])).batchItemFailures =
      [⟨some "m2"⟩] := by
  rw [(handler_partial_batch _ _).1]
  rfl

/-- Claim C10: the failure list is always drawn from the batch itself:
every reported identifier is the message id of some record, the reported
identifiers form a subsequence (hence preserve the order) of the batch's
message ids, the list never outgrows the batch, and an event without
records yields an empty failure list. -/
theorem handler_failures_from_batch (env : WorkerEnv) (event : Option (List SqsRec)) :
    (∀ f ∈ (handler env event).batchItemFailures,
      ∃ r ∈ event.getD [], f.itemIdentifier = r.messageId) ∧
    ((handler env event).batchItemFailures.map (fun f => f.itemIdentifier)).Sublist
      ((event.getD []).map (fun r => r.messageId)) ∧
    (handler env event).batchItemFailures.length ≤ (event.getD []).length ∧
    handler env none = ⟨[]⟩ ∧ handler env (some []) = ⟨[]⟩ := by
  have hev : handler env event = handler env (some (event.getD [])) := by
    cases event <;> rfl
  rw [hev, handler_eq]
  refine ⟨?_, ?_, ?_, rfl, rfl⟩
  · intro f hf
    simp only [List.mem_map] at hf
    obtain ⟨r, hr, hfr⟩ := hf
    exact ⟨r, List.mem_of_mem_filter hr, by rw [← hfr]⟩
  · have hsub : (List.filter (fun r => !(process_message env r.body).fst)
        (event.getD [])).Sublist (event.getD []) := List.filter_sublist _
    have := hsub.map (fun r => r.messageId)
    simpa [List.map_map] using this
  · calc (List.map (fun r => (⟨r.messageId⟩ : ItemFailure))
        (List.filter (fun r => !(process_message env r.body).fst) (event.getD []))).length
        = (List.filter (fun r => !(process_message env r.body).fst) (event.getD [])).length :=
          List.length_map _ _
      _ ≤ (event.getD []).length := (List.filter_sublist _).length_le

/-- Witness for claim C10 at a concrete two-record batch with one
failing record. -/
theorem handler_failures_from_batch_witness :
    (handler
      { tableConfigured := false, putItem := fun _ => PutOutcome.ok,
        parse := fun _ => none, now := "ts" }
      (some [⟨some "a", JVal.null⟩, ⟨some "b", JVal.null⟩])).batchItemFailures.length ≤ 2 := by
  have h := handler_failures_from_batch
    { tableConfigured := false, putItem := fun _ => PutOutcome.ok,
      parse := fun _ => none, now := "ts" }
    (some [⟨some "a", JVal.null⟩, ⟨some "b", JVal.null⟩])
  exact h.2.2.1

/-! ### Infrastructure lemmas for the match semantics -/

theorem getLast?_cons_exists {α : Type} (l : List α) (d : α) :
    ∃ c, (d :: l).getLast? = some c := by
  induction l generalizing d with
  | nil => exact ⟨d, rfl⟩
  | cons e l' ih =>
    rw [List.getLast?_cons_cons]
    exact ih e

theorem prevAfter_cons (l : List Char) (c : Char) (prev : Option Char) :
    prevAfter prev (c :: l) = prevAfter (some c) l := by
  cases l with
  | nil => rfl
  | cons d l' =>
    obtain ⟨e, he⟩ := getLast?_cons_exists l' d
    simp only [prevAfter, List.getLast?_cons_cons, he]

theorem prevAfter_append (a b : List Char) (prev : Option Char) :
    prevAfter prev (a ++ b) = prevAfter (prevAfter prev a) b := by
  induction a generalizing prev with
  | nil => rfl
  | cons c a' ih =>
    rw [List.cons_append, prevAfter_cons, ih, prevAfter_cons]

theorem prevAfter_ne_nil (a : List Char) (h : a ≠ []) (x y : Option Char) :
    prevAfter x a = prevAfter y a := by
  cases a with
  | nil => exact absurd rfl h
  | cons c a' =>
    obtain ⟨e, he⟩ := getLast?_cons_exists a' c
    simp only [prevAfter, he]

theorem headO_append (a b : List Char) : (a ++ b).head? = a.head?.or b.head? := by
  cases a <;> rfl

theorem countLeading_le_length (p : Char → Bool) (s : List Char) :
    countLeading p s ≤ s.length := by
  induction s with
  | nil => exact Nat.le_refl _
  | cons c rest ih =>
    simp only [countLeading, List.length_cons]
    split
    · omega
    · omega

theorem countLeading_take (p : Char → Bool) (s : List Char) :
    ∀ k, k ≤ countLeading p s → ∀ c ∈ s.take k, p c = true := by
  induction s with
  | nil => intro k hk c hc; simp at hc
  | cons d rest ih =>
    intro k hk c hc
    cases k with
    | zero => simp at hc
    | succ k' =>
      simp only [countLeading] at hk
      by_cases hd : p d
      · rw [if_pos hd] at hk
        simp only [List.take_succ_cons, List.mem_cons] at hc
        rcases hc with hc | hc
        · rw [hc]; exact hd
        · exact ih k' (by omega) c hc
      · rw [if_neg hd] at hk
        omega
      
theorem all_prefix_le_countLeading (p : Char → Bool) (a b : List Char)
    (h : ∀ c ∈ a, p c = true) : a.length ≤ countLeading p (a ++ b) := by
  induction a with
  | nil => simp
  | cons c a' ih =>
    have hc : p c = true := h c (List.mem_cons_self c a')
    have ihh := ih (fun d hd => h d (List.mem_cons_of_mem c hd))
    have hstep : countLeading p ((c :: a') ++ b) = countLeading p (a' ++ b) + 1 := by
      simp [countLeading, hc]
    rw [hstep, List.length_cons]
    omega

/-! ### Facts about the declarative match relation -/

theorem sat_minLen (re : List RItem) :
    ∀ prev cs nxt, Sat re prev cs nxt → minLen re ≤ cs.length := by
  induction re with
  | nil =>
    intro prev cs nxt h
    simp only [Sat] at h
    simp [minLen, h]
  | cons it rest ih =>
    cases it with
    | bnd =>
      intro prev cs nxt h
      simp only [Sat] at h
      exact ih prev cs nxt h.2
    | cls p lo hi =>
      intro prev cs nxt h
      simp only [Sat] at h
      obtain ⟨a, b, hcs, _, hlo, _, hsat⟩ := h
      subst hcs
      have := ih _ b nxt hsat
      simp only [minLen, List.length_append]
      omega

theorem sat_chars (re : List RItem) :
    ∀ prev cs nxt, Sat re prev cs nxt → ∀ c ∈ cs, clsChars re c = true := by
  induction re with
  | nil =>
    intro prev cs nxt h c hc
    simp only [Sat] at h
    subst h
    simp at hc
  | cons it rest ih =>
    cases it with
    | bnd =>
      intro prev cs nxt h c hc
      simp only [Sat] at h
      exact ih prev cs nxt h.2 c hc
    | cls p lo hi =>
      intro prev cs nxt h c hc
      simp only [Sat] at h
      obtain ⟨a, b, hcs, hall, _, _, hsat⟩ := h
      subst hcs
      simp only [clsChars, Bool.or_eq_true]
      rcases List.mem_append.mp hc with hca | hcb
      · exact Or.inl (hall c hca)
      · exact Or.inr (ih _ b nxt hsat c hcb)

theorem sat_exists_char (re : List RItem) :
    ∀ prev cs nxt (p : Char → Bool) lo hi, RItem.cls p lo hi ∈ re → 1 ≤ lo →
      Sat re prev cs nxt → ∃ c ∈ cs, p c = true := by
  induction re with
  | nil =>
    intro prev cs nxt p lo hi hmem
    simp at hmem
  | cons it rest ih =>
    intro prev cs nxt p lo hi hmem hlo h
    cases it with
    | bnd =>
      simp only [Sat] at h
      rcases List.mem_cons.mp hmem with heq | hmem'
      · cases heq
      · exact ih prev cs nxt p lo hi hmem' hlo h.2
    | cls p' lo' hi' =>
      simp only [Sat] at h
      obtain ⟨a, b, hcs, hall, hlo', _, hsat⟩ := h
      subst hcs
      rcases List.mem_cons.mp hmem with heq | hmem'
      · injection heq with hp hlo2 hhi
        subst hp
        subst hlo2
        cases a with
        | nil => simp at hlo'; omega
        | cons c a' =>
          exact ⟨c, List.mem_append.mpr (Or.inl (List.mem_cons_self c a')),
            hall c (List.mem_cons_self c a')⟩
      · obtain ⟨c, hcb, hpc⟩ := ih _ b nxt p lo hi hmem' hlo hsat
        exact ⟨c, List.mem_append.mpr (Or.inr hcb), hpc⟩

theorem sat_hi_mono (p : Char → Bool) (lo h1 : Nat) (hi2 : Option Nat)
    (rest : List RItem) (prev : Option Char) (cs : List Char) (nxt : Option Char)
    (h : Sat (.cls p lo (some h1) :: rest) prev cs nxt)
    (hmono : ∀ n, n ≤ h1 → hiOk hi2 n) :
    Sat (.cls p lo hi2 :: rest) prev cs nxt := by
  simp only [Sat] at h ⊢
  obtain ⟨a, b, hcs, hall, hlo, hhi, hsat⟩ := h
  exact ⟨a, b, hcs, hall, hlo, hmono a.length hhi, hsat⟩

theorem sat_ctx_free (re : List RItem) :
    ∀ prev cs nxt prev2 nxt2, (∀ it ∈ re, it ≠ RItem.bnd) →
      Sat re prev cs nxt → Sat re prev2 cs nxt2 := by
  induction re with
  | nil =>
    intro prev cs nxt prev2 nxt2 _ h
    simpa only [Sat] using h
  | cons it rest ih =>
    intro prev cs nxt prev2 nxt2 hfree h
    cases it with
    | bnd => exact absurd rfl (hfree RItem.bnd (List.mem_cons_self _ _))
    | cls p lo hi =>
      simp only [Sat] at h ⊢
      obtain ⟨a, b, hcs, hall, hlo, hhi, hsat⟩ := h
      exact ⟨a, b, hcs, hall, hlo, hhi,
        ih _ b nxt _ nxt2 (fun x hx => hfree x (List.mem_cons_of_mem _ hx)) hsat⟩

theorem sat_congr_ctx (re : List RItem) :
    ∀ prev cs nxt prev2 nxt2, isWordO prev = isWordO prev2 → isWordO nxt = isWordO nxt2 →
      Sat re prev cs nxt → Sat re prev2 cs nxt2 := by
  induction re with
  | nil =>
    intro prev cs nxt prev2 nxt2 _ _ h
    simpa only [Sat] using h
  | cons it rest ih =>
    intro prev cs nxt prev2 nxt2 hp hn h
    cases it with
    | bnd =>
      simp only [Sat] at h ⊢
      refine ⟨?_, ih prev cs nxt prev2 nxt2 hp hn h.2⟩
      have hcur : isWordO (cs.head?.or nxt) = isWordO (cs.head?.or nxt2) := by
        cases cs with
        | nil => simpa using hn
        | cons c cs' => rfl
      rw [← hp, ← hcur]
      exact h.1
    | cls p lo hi =>
      simp only [Sat] at h ⊢
      obtain ⟨a, b, hcs, hall, hlo, hhi, hsat⟩ := h
      refine ⟨a, b, hcs, hall, hlo, hhi, ?_⟩
      have hpa : isWordO (prevAfter prev a) = isWordO (prevAfter prev2 a) := by
        cases ha : a with
        | nil => simpa [prevAfter] using hp
        | cons c a' =>
          rw [prevAfter_ne_nil (c :: a') (by simp) prev prev2]
      exact ih _ b nxt _ nxt2 hpa hn hsat

theorem sat_trailing_bnd (re : List RItem) :
    ∀ prev cs nxt, re.getLast? = some RItem.bnd → Sat re prev cs nxt →
      (isWordO (prevAfter prev cs) != isWordO nxt) = true := by
  induction re with
  | nil =>
    intro prev cs nxt hlast
    simp at hlast
  | cons it rest ih =>
    intro prev cs nxt hlast h
    cases rest with
    | nil =>
      cases it with
      | bnd =>
        simp only [Sat] at h
        obtain ⟨hcond, hnil⟩ := h
        subst hnil
        exact hcond
      | cls p lo hi => simp at hlast
    | cons it2 rest2 =>
      rw [List.getLast?_cons_cons] at hlast
      cases it with
      | bnd =>
        simp only [Sat] at h
        exact ih prev cs nxt hlast h.2
      | cls p lo hi =>
        simp only [Sat] at h
        obtain ⟨a, b, hcs, _, _, _, hsat⟩ := h
        subst hcs
        rw [prevAfter_append]
        exact ih _ b nxt hlast hsat

theorem sat_head_cls (p : Char → Bool) (lo : Nat) (hi : Option Nat) (rest : List RItem)
    (prev : Option Char) (cs : List Char) (nxt : Option Char)
    (h : Sat (.cls p lo hi :: rest) prev cs nxt) (hlo : 1 ≤ lo) :
    ∃ c cs', cs = c :: cs' ∧ p c = true := by
  simp only [Sat] at h
  obtain ⟨a, b, hcs, hall, hlo', _, _⟩ := h
  cases a with
  | nil => simp at hlo'; omega
  | cons c a' =>
    exact ⟨c, a' ++ b, by simpa using hcs, hall c (List.mem_cons_self c a')⟩

theorem take_append_self {α : Type} (a b : List α) : (a ++ b).take a.length = a := by
  induction a with
  | nil => rfl
  | cons c a' ih => simp [List.take_succ_cons, ih]

theorem drop_append_self {α : Type} (a b : List α) : (a ++ b).drop a.length = b := by
  induction a with
  | nil => rfl
  | cons c a' ih => simpa using ih

theorem hiOk_boundedMax (p : Char → Bool) (hi : Option Nat) (s : List Char) :
    hiOk hi (boundedMax p hi s) := by
  cases hi with
  | none => trivial
  | some h => exact Nat.min_le_right _ _

theorem le_boundedMax_of_sat_parts (p : Char → Bool) (hi : Option Nat)
    (a tail : List Char) (hall : ∀ c ∈ a, p c = true) (hhi : hiOk hi a.length) :
    a.length ≤ boundedMax p hi (a ++ tail) := by
  have hcl := all_prefix_le_countLeading p a tail hall
  cases hi with
  | none => exact hcl
  | some h => exact le_min hcl hhi

/-- Soundness of the matcher: a successful match at the current position
consumes a prefix that satisfies the declarative relation, and reports
the last consumed character as the new preceding character. -/
theorem matchItems_sound (re : List RItem) (prev : Option Char) (s : List Char) :
    ∀ p' rem, matchItems re prev s = some (p', rem) →
      ∃ cons, s = cons ++ rem ∧ Sat re prev cons rem.head? ∧ p' = prevAfter prev cons := by
  induction re, prev, s using matchItems.induct with
  | case1 prev s =>
    intro p' rem h
    simp only [matchItems, Option.some.injEq, Prod.mk.injEq] at h
    refine ⟨[], by simp [h.2], ?_, by simp [prevAfter, h.1]⟩
    simp only [Sat]
  | case2 rest prev s hcond ih =>
    intro p' rem h
    simp only [matchItems, if_pos hcond] at h
    obtain ⟨cons, hsplit, hsat, hp'⟩ := ih p' rem h
    refine ⟨cons, hsplit, ?_, hp'⟩
    simp only [Sat]
    refine ⟨?_, hsat⟩
    rw [hsplit, headO_append] at hcond
    exact hcond
  | case3 rest prev s hcond =>
    intro p' rem h
    simp only [matchItems, if_neg hcond] at h
    exact Option.noConfusion h
  | case4 p lo hi rest prev s m hm r hinner ih =>
    intro p' rem h
    have hm' : lo ≤ boundedMax p hi s := hm
    have hinner' : matchItems rest (prevAfter prev (s.take (boundedMax p hi s)))
        (s.drop (boundedMax p hi s)) = some r := hinner
    simp only [matchItems, if_pos hm', hinner'] at h
    rw [Option.some.injEq] at h
    subst h
    obtain ⟨cons', hsplit, hsat, hp'⟩ := ih p' rem hinner'
    have hmlen : boundedMax p hi s ≤ s.length :=
      Nat.le_trans (boundedMax_le_countLeading p hi s) (countLeading_le_length p s)
    refine ⟨s.take (boundedMax p hi s) ++ cons', ?_, ?_, ?_⟩
    · rw [List.append_assoc, ← hsplit]
      exact (List.take_append_drop _ s).symm
    · simp only [Sat]
      refine ⟨s.take (boundedMax p hi s), cons', rfl, ?_, ?_, ?_, hsat⟩
      · exact countLeading_take p s _ (boundedMax_le_countLeading p hi s)
      · rw [List.length_take]
        omega
      · rw [List.length_take, Nat.min_eq_left hmlen]
        exact hiOk_boundedMax p hi s
    · rw [hp', prevAfter_append]
  | case5 p lo hi rest prev s m hm hinner hlt ih_inner ih_fb =>
    intro p' rem h
    have hm' : lo ≤ boundedMax p hi s := hm
    have hlt' : lo < boundedMax p hi s := hlt
    have hinner' : matchItems rest (prevAfter prev (s.take (boundedMax p hi s)))
        (s.drop (boundedMax p hi s)) = none := hinner
    rw [matchItems.eq_3, if_pos hm', hinner', if_pos hlt'] at h
    obtain ⟨cons, hsplit, hsat, hp'⟩ := ih_fb p' rem h
    refine ⟨cons, hsplit, ?_, hp'⟩
    refine sat_hi_mono p lo _ hi rest prev cons rem.head? hsat ?_
    intro n hn
    cases hi with
    | none => trivial
    | some hh =>
      have : boundedMax p (some hh) s ≤ hh := Nat.min_le_right _ _
      simp only [hiOk]
      omega
  | case6 p lo hi rest prev s m hm hinner hnlt ih =>
    intro p' rem h
    have hm' : lo ≤ boundedMax p hi s := hm
    have hnlt' : ¬ lo < boundedMax p hi s := hnlt
    have hinner' : matchItems rest (prevAfter prev (s.take (boundedMax p hi s)))
        (s.drop (boundedMax p hi s)) = none := hinner
    rw [matchItems.eq_3, if_pos hm', hinner', if_neg hnlt'] at h
    exact Option.noConfusion h
  | case7 p lo hi rest prev s m hm =>
    intro p' rem h
    have hm' : ¬ lo ≤ boundedMax p hi s := hm
    rw [matchItems.eq_3, if_neg hm'] at h
    exact Option.noConfusion h

/-- Completeness of the matcher: if some declarative match exists at the
current position, the matcher does not fail there. -/
theorem matchItems_complete (re : List RItem) (prev : Option Char) (s : List Char) :
    ∀ cons rest, s = cons ++ rest → Sat re prev cons rest.head? →
      matchItems re prev s ≠ none := by
  induction re, prev, s using matchItems.induct with
  | case1 prev s =>
    intro cons rest hsplit hsat
    simp [matchItems]
  | case2 rrest prev s hcond ih =>
    intro cons rest hsplit hsat
    simp only [Sat] at hsat
    rw [matchItems.eq_2, if_pos hcond]
    exact ih cons rest hsplit hsat.2
  | case3 rrest prev s hcond =>
    intro cons rest hsplit hsat
    simp only [Sat] at hsat
    refine absurd ?_ hcond
    rw [hsplit, headO_append]
    exact hsat.1
  | case4 p lo hi rrest prev s m hm r hinner ih =>
    intro cons rest hsplit hsat
    have hm' : lo ≤ boundedMax p hi s := hm
    have hinner' : matchItems rrest (prevAfter prev (s.take (boundedMax p hi s)))
        (s.drop (boundedMax p hi s)) = some r := hinner
    rw [matchItems.eq_3, if_pos hm', hinner']
    simp
  | case5 p lo hi rrest prev s m hm hinner hlt ih_inner ih_fb =>
    intro cons rest hsplit hsat
    have hm' : lo ≤ boundedMax p hi s := hm
    have hlt' : lo < boundedMax p hi s := hlt
    have hinner' : matchItems rrest (prevAfter prev (s.take (boundedMax p hi s)))
        (s.drop (boundedMax p hi s)) = none := hinner
    rw [matchItems.eq_3, if_pos hm', hinner', if_pos hlt']
    simp only [Sat] at hsat
    obtain ⟨a, b, hab, hall, hlo, hhi, hsat'⟩ := hsat
    have hsx : s = a ++ (b ++ rest) := by rw [hsplit, hab, List.append_assoc]
    have hna : a.length ≤ boundedMax p hi s := by
      rw [hsx]
      exact le_boundedMax_of_sat_parts p hi a (b ++ rest) hall hhi
    by_cases heq : a.length = boundedMax p hi s
    · exfalso
      have hta : s.take (boundedMax p hi s) = a := by
        rw [← heq, hsx, take_append_self]
      have hda : s.drop (boundedMax p hi s) = b ++ rest := by
        rw [← heq, hsx, drop_append_self]
      have hbr : (s.drop (boundedMax p hi s)) = b ++ rest := hda
      have hsat2 : Sat rrest (prevAfter prev (s.take (boundedMax p hi s))) b rest.head? := by
        rw [hta]
        exact hsat'
      exact ih_inner b rest hbr hsat2 hinner'
    · have hlt2 : a.length < boundedMax p hi s := lt_of_le_of_ne hna heq
      apply ih_fb cons rest hsplit
      simp only [Sat]
      refine ⟨a, b, hab, hall, hlo, ?_, hsat'⟩
      simp only [hiOk]
      omega
  | case6 p lo hi rrest prev s m hm hinner hnlt ih =>
    intro cons rest hsplit hsat
    exfalso
    have hm' : lo ≤ boundedMax p hi s := hm
    have hnlt' : ¬ lo < boundedMax p hi s := hnlt
    have hinner' : matchItems rrest (prevAfter prev (s.take (boundedMax p hi s)))
        (s.drop (boundedMax p hi s)) = none := hinner
    simp only [Sat] at hsat
    obtain ⟨a, b, hab, hall, hlo, hhi, hsat'⟩ := hsat
    have hsx : s = a ++ (b ++ rest) := by rw [hsplit, hab, List.append_assoc]
    have hna : a.length ≤ boundedMax p hi s := by
      rw [hsx]
      exact le_boundedMax_of_sat_parts p hi a (b ++ rest) hall hhi
    have heq : a.length = boundedMax p hi s := by omega
    have hta : s.take (boundedMax p hi s) = a := by
      rw [← heq, hsx, take_append_self]
    have hda : s.drop (boundedMax p hi s) = b ++ rest := by
      rw [← heq, hsx, drop_append_self]
    have hsat2 : Sat rrest (prevAfter prev (s.take (boundedMax p hi s))) b rest.head? := by
      rw [hta]
      exact hsat'
    exact ih b rest hda hsat2 hinner'
  | case7 p lo hi rrest prev s m hm =>
    intro cons rest hsplit hsat
    exfalso
    have hm' : ¬ lo ≤ boundedMax p hi s := hm
    simp only [Sat] at hsat
    obtain ⟨a, b, hab, hall, hlo, hhi, hsat'⟩ := hsat
    have hsx : s = a ++ (b ++ rest) := by rw [hsplit, hab, List.append_assoc]
    have hna : a.length ≤ boundedMax p hi s := by
      rw [hsx]
      exact le_boundedMax_of_sat_parts p hi a (b ++ rest) hall hhi
    omega

/-! ### Scan-level lemmas -/

theorem noMatchC_cons (re : List RItem) (prev : Option Char) (c : Char) (rest : List Char)
    (h : NoMatchC re prev (c :: rest)) : NoMatchC re (some c) rest := by
  intro pre cons rest2 hsplit hsat
  refine h (c :: pre) cons rest2 (by rw [hsplit]; rfl) ?_
  rw [prevAfter_cons]
  exact hsat

theorem noMatchC_append_left (re : List RItem) (prev : Option Char)
    (chunk rem : List Char) (h : NoMatchC re prev (chunk ++ rem)) :
    NoMatchC re (prevAfter prev chunk) rem := by
  intro pre cons rest2 hsplit hsat
  refine h (chunk ++ pre) cons rest2 ?_ ?_
  · rw [hsplit]
    simp only [List.append_assoc]
  · rw [prevAfter_append]
    exact hsat

theorem subA_nil_eq (re : List RItem) (prev : Option Char) : subA re prev [] = [] := by
  rw [subA]

theorem subA_cons_match_some (re : List RItem) (prev : Option Char) (c : Char)
    (rest : List Char) (p' : Option Char) (rem : List Char)
    (hmatch : matchItems re prev (c :: rest) = some (p', rem)) :
    subA re prev (c :: rest) =
      if rem.length < (c :: rest).length then markerL ++ subA re p' rem
      else c :: subA re (some c) rest := by
  rw [subA, hmatch]
  simp only [dite_eq_ite]

theorem subA_cons_match_none (re : List RItem) (prev : Option Char) (c : Char)
    (rest : List Char) (hmatch : matchItems re prev (c :: rest) = none) :
    subA re prev (c :: rest) = c :: subA re (some c) rest := by
  rw [subA, hmatch]

/-- The substitution scan realizes the structural decomposition whenever
the pattern cannot match the empty string. -/
theorem subA_decomp (re : List RItem) (hmin : 1 ≤ minLen re) (prev : Option Char)
    (s : List Char) : SubDecomp re prev s (subA re prev s) := by
  induction prev, s using subA.induct re with
  | case1 prev =>
    rw [subA_nil_eq]
    exact SubDecomp.nil prev
  | case2 prev c rest p' rem hmatch hlt ih =>
    rw [subA_cons_match_some re prev c rest p' rem hmatch, if_pos hlt]
    exact SubDecomp.repl prev c rest p' rem _ hmatch hlt ih
  | case3 prev c rest p' rem hmatch hnlt ih =>
    exfalso
    obtain ⟨cons, hsplit, hsat, _⟩ := matchItems_sound re prev (c :: rest) p' rem hmatch
    have h1 := sat_minLen re prev cons rem.head? hsat
    have h2 : (c :: rest).length = cons.length + rem.length := by
      rw [hsplit, List.length_append]
    exact hnlt (by omega)
  | case4 prev c rest hmatch ih =>
    rw [subA_cons_match_none re prev c rest hmatch]
    exact SubDecomp.keep prev c rest _ hmatch ih

/-- If the pattern matches nowhere in `s` (with `prev` before it), the
substitution pass returns `s` unchanged. -/
theorem subA_id_of_noMatch (re : List RItem) (prev : Option Char) (s : List Char)
    (h : NoMatchC re prev s) : subA re prev s = s := by
  induction prev, s using subA.induct re with
  | case1 prev => exact subA_nil_eq re prev
  | case2 prev c rest p' rem hmatch hlt ih =>
    exfalso
    obtain ⟨cons, hsplit, hsat, _⟩ := matchItems_sound re prev (c :: rest) p' rem hmatch
    exact h [] cons rem hsplit hsat
  | case3 prev c rest p' rem hmatch hnlt ih =>
    exfalso
    obtain ⟨cons, hsplit, hsat, _⟩ := matchItems_sound re prev (c :: rest) p' rem hmatch
    exact h [] cons rem hsplit hsat
  | case4 prev c rest hmatch ih =>
    rw [subA_cons_match_none re prev c rest hmatch,
      ih (noMatchC_cons re prev c rest h)]

/-! ### Transfer machinery: relating a pass output to its input -/

theorem getLast?_append_right {α : Type} (x t : List α) (h : t ≠ []) :
    (x ++ t).getLast? = t.getLast? := by
  induction x with
  | nil => rfl
  | cons c x' ih =>
    cases hxt : (x' ++ t) with
    | nil =>
      rcases List.append_eq_nil.mp hxt with ⟨_, ht⟩
      exact absurd ht h
    | cons d l =>
      rw [List.cons_append, hxt, List.getLast?_cons_cons, ← hxt, ih]

theorem mem_of_getLast? {α : Type} (l : List α) (a : α) (h : l.getLast? = some a) :
    a ∈ l := by
  induction l with
  | nil => exact Option.noConfusion h
  | cons c l' ih =>
    cases l' with
    | nil =>
      simp only [List.getLast?_singleton, Option.some.injEq] at h
      simp [h]
    | cons d l'' =>
      rw [List.getLast?_cons_cons] at h
      exact List.mem_cons_of_mem c (ih h)

theorem markerL_eq : markerL = '[' :: coreR := rfl

theorem markerL_getLast : markerL.getLast? = some ']' := by decide

theorem coreR_getLast : coreR.getLast? = some ']' := by decide

theorem prevAfter_markerL (x : Option Char) : prevAfter x markerL = some ']' := by
  simp only [prevAfter, markerL_getLast]

theorem rbracket_mem_marker_suffix (x t : List Char) (hmk : markerL = x ++ t)
    (ht : t ≠ []) : ']' ∈ t := by
  have := getLast?_append_right x t ht
  rw [← hmk, markerL_getLast] at this
  exact mem_of_getLast? t ']' this.symm

theorem rbracket_mem_coreR_suffix (x t : List Char) (hmk : coreR = x ++ t)
    (ht : t ≠ []) : ']' ∈ t := by
  have := getLast?_append_right x t ht
  rw [← hmk, coreR_getLast] at this
  exact mem_of_getLast? t ']' this.symm

theorem sat_ne_nil (P : List RItem) (hPmin : 1 ≤ minLen P) (a : Option Char)
    (cs : List Char) (n : Option Char) (h : Sat P a cs n) : cs ≠ [] := by
  intro h0
  have := sat_minLen P a cs n h
  rw [h0] at this
  simp at this
  omega

theorem sat_not_mem (P : List RItem) (ch : Char) (hch : clsChars P ch = false)
    (a : Option Char) (cs : List Char) (n : Option Char) (h : Sat P a cs n) :
    ch ∉ cs := by
  intro hmem
  have := sat_chars P a cs n h ch hmem
  rw [hch] at this
  exact Bool.noConfusion this

/-- Prefix-and-next-character relation between the input and the output
of a pass: a bracket-free prefix of the output is also a prefix of the
input, and the characters following it on both sides either agree or the
output continues with a freshly inserted marker whose replaced chunk
begins with a character that is either non-word or separated from the
prefix by a word boundary. -/
theorem subDecomp_pref_next (re : List RItem) (hlead : LeadOk re) (hmin : 1 ≤ minLen re) :
    ∀ prevU u v, SubDecomp re prevU u v →
      ∀ l, (∃ w, v = l ++ w) → '[' ∉ l →
        ∃ restU restV, u = l ++ restU ∧ v = l ++ restV ∧
          (restV.head? = restU.head? ∨
            (restV.head? = some '[' ∧ ∃ g restU2, restU = g :: restU2 ∧
              (isWordA g = false ∨
                (isWordO (prevAfter prevU l) != isWordO (some g)) = true))) := by
  intro prevU u v hdec
  induction hdec with
  | nil prev =>
    intro l hpre hbr
    obtain ⟨w, hw⟩ := hpre
    have hl : l = [] := by
      rcases List.append_eq_nil.mp hw.symm with ⟨h1, _⟩
      exact h1
    subst hl
    exact ⟨[], [], rfl, rfl, Or.inl rfl⟩
  | keep prev c rest out hnone hdec ih =>
    intro l hpre hbr
    cases l with
    | nil =>
      exact ⟨c :: rest, c :: out, rfl, rfl, Or.inl rfl⟩
    | cons c' l' =>
      obtain ⟨w, hw⟩ := hpre
      rw [List.cons_append] at hw
      injection hw with hc hout
      subst hc
      obtain ⟨restU, restV, hu', hv', hrel⟩ :=
        ih l' ⟨w, hout⟩ (fun hm => hbr (List.mem_cons_of_mem _ hm))
      refine ⟨restU, restV, by rw [List.cons_append, hu'], by rw [List.cons_append, hv'], ?_⟩
      rcases hrel with hrel | ⟨hbrk, g, restU2, hg, hgd⟩
      · exact Or.inl hrel
      · refine Or.inr ⟨hbrk, g, restU2, hg, ?_⟩
        rw [prevAfter_cons]
        exact hgd
  | repl prev c rest p' rem out hmatch hlen hdec ih =>
    intro l hpre hbr
    cases l with
    | nil =>
      obtain ⟨chunk, huc, hsatc, hp'⟩ := matchItems_sound re prev (c :: rest) p' rem hmatch
      have hchne : chunk ≠ [] := sat_ne_nil re hmin prev chunk rem.head? hsatc
      cases chunk with
      | nil => exact absurd rfl hchne
      | cons g chunk' =>
        refine ⟨c :: rest, markerL ++ out, rfl, rfl, Or.inr ⟨rfl, ?_⟩⟩
        rw [huc, List.cons_append]
        refine ⟨g, chunk' ++ rem, rfl, ?_⟩
        rcases hlead with ⟨rest', hre⟩ | ⟨p, lo, hi, rest', hre, hlo, hnw⟩
        · subst hre
          simp only [Sat] at hsatc
          right
          have hcond := hsatc.1
          simpa [prevAfter] using hcond
        · subst hre
          obtain ⟨c0, cs0, hcs0, hpc0⟩ := sat_head_cls p lo hi rest' prev _ rem.head? hsatc hlo
          injection hcs0 with hgc0 _
          left
          rw [hgc0]
          exact hnw c0 hpc0
    | cons c' l' =>
      obtain ⟨w, hw⟩ := hpre
      rw [markerL_eq] at hw
      rw [List.cons_append] at hw
      injection hw with hc _
      exact absurd (by rw [← hc]; exact List.mem_cons_self _ _) hbr

/-- Core transfer: a match of `P` sitting at the start of a pass output
is also a match of `P` at the start of the pass input, provided `P`
draws no bracket characters, cannot match the empty string, and is
either free of boundary assertions or delimited by them on both sides
(with the stated invariant relating the two contexts). -/
theorem core_transfer (re P : List RItem)
    (hlead : LeadOk re) (hminre : 1 ≤ minLen re)
    (hPbr1 : clsChars P '[' = false)
    (hPmin : 1 ≤ minLen P)
    (hPshape : (∀ it ∈ P, it ≠ RItem.bnd) ∨
      (P.head? = some RItem.bnd ∧ P.getLast? = some RItem.bnd))
    (prevU prevV : Option Char) (u v : List Char)
    (hdec : SubDecomp re prevU u v)
    (hinv : P.head? = some RItem.bnd →
      prevV = prevU ∨ (prevV = some ']' ∧
        (isWordO prevU = false ∨ isWordO u.head? = false)))
    (cons restV : List Char) (hv : v = cons ++ restV)
    (hsat : Sat P prevV cons restV.head?) :
    ∃ restU, u = cons ++ restU ∧ Sat P prevU cons restU.head? := by
  have hconsne : cons ≠ [] := sat_ne_nil P hPmin prevV cons restV.head? hsat
  have hbr : '[' ∉ cons := sat_not_mem P '[' hPbr1 prevV cons restV.head? hsat
  obtain ⟨restU, restV0, hu, hv', hrel⟩ :=
    subDecomp_pref_next re hlead hminre prevU u v hdec cons ⟨restV, hv⟩ hbr
  have hrv : restV0 = restV := by
    rw [hv] at hv'
    exact (List.append_cancel_left hv'.symm)
  rw [hrv] at hrel
  refine ⟨restU, hu, ?_⟩
  rcases hPshape with hfree | ⟨hh, ht⟩
  · exact sat_ctx_free P prevV cons restV.head? prevU restU.head? hfree hsat
  · -- P begins and ends with a boundary assertion
    obtain ⟨f, cons', hcons⟩ : ∃ f cons', cons = f :: cons' := by
      cases cons with
      | nil => exact absurd rfl hconsne
      | cons f cons' => exact ⟨f, cons', rfl⟩
    -- previous-context word status transfers
    have hprev : isWordO prevV = isWordO prevU := by
      rcases hinv hh with heq | ⟨hpv, hdisj⟩
      · rw [heq]
      · obtain ⟨P', hP⟩ : ∃ P', P = RItem.bnd :: P' := by
          cases P with
          | nil => exact Option.noConfusion hh
          | cons it P' =>
            injection hh with hh'
            rw [hh']
            exact ⟨P', rfl⟩
        have hcond : (isWordO prevV != isWordO (cons.head?.or restV.head?)) = true := by
          rw [hP] at hsat
          simp only [Sat] at hsat
          exact hsat.1
        rw [hcons] at hcond
        have hf : isWordA f = true := by
          rw [hpv] at hcond
          simpa [isWordO, isWordA, isAlphaA, isDigitA] using hcond
        have huh : isWordO u.head? = true := by
          rw [hu, hcons]
          simpa [isWordO] using hf
        rcases hdisj with hd | hd
        · rw [hpv, hd]
          simp [isWordO, isWordA, isAlphaA, isDigitA]
        · rw [hd] at huh
          exact Bool.noConfusion huh
    -- next-context word status transfers
    have hlb : isWordA '[' = false := by decide
    have hnext : isWordO restV.head? = isWordO restU.head? := by
      rcases hrel with heq | ⟨hbrk, g, restU2, hg, hgd⟩
      · rw [heq]
      · have hgw : isWordA g = false := by
          rcases hgd with hgw | hxor
          · exact hgw
          · -- the trailing boundary of the match at the inserted bracket
            -- forces the last matched character to be a word character,
            -- so the chunk-lead boundary forces g non-word
            have htr := sat_trailing_bnd P prevV cons restV.head? ht hsat
            rw [hbrk] at htr
            have hlast : isWordO (prevAfter prevV cons) = true := by
              simp only [isWordO, hlb] at htr
              simpa using htr
            rw [prevAfter_ne_nil cons hconsne prevV prevU] at hlast
            rw [hlast] at hxor
            simpa [isWordO] using hxor
        rw [hbrk, hg]
        show isWordO (some '[') = isWordO (some g)
        simp only [isWordO]
        rw [hgw, hlb]
    exact sat_congr_ctx P prevV cons restV.head? prevU restU.head? hprev hnext hsat

/-- Main preservation lemma.  Let `v` be the output of one substitution
pass of `re` over `u`.  If `P` is the pass pattern itself, or a pattern
that has no match anywhere in `u`, then `P` has no match anywhere in
`v`, under the side conditions: `P` draws no bracket characters, cannot
match the empty string, has no match inside the marker core, and is
either boundary-free or boundary-delimited; the pass pattern consumes at
least one character, leads with a boundary or a non-word class, and ends
with a boundary whenever `P` leads with one. -/
theorem subDecomp_noMatch (re P : List RItem)
    (hlead : LeadOk re) (hminre : 1 ≤ minLen re)
    (hPbr1 : clsChars P '[' = false) (hPbr2 : clsChars P ']' = false)
    (hPmin : 1 ≤ minLen P)
    (hPcore : NoMatchC P (some '[') coreR)
    (hPshape : (∀ it ∈ P, it ≠ RItem.bnd) ∨
      (P.head? = some RItem.bnd ∧ P.getLast? = some RItem.bnd))
    (hPreTrail : P.head? = some RItem.bnd → re.getLast? = some RItem.bnd) :
    ∀ prevU u v, SubDecomp re prevU u v →
      ∀ prevV,
        (P.head? = some RItem.bnd →
          prevV = prevU ∨ (prevV = some ']' ∧
            (isWordO prevU = false ∨ isWordO u.head? = false))) →
        (P = re ∨ NoMatchC P prevU u) →
        NoMatchC P prevV v := by
  intro prevU u v hdec
  induction hdec with
  | nil prev =>
    intro prevV hinv hU pre cons rest hsplit hsat
    have hlen := congrArg List.length hsplit
    simp only [List.length_nil, List.length_append] at hlen
    have := sat_minLen P _ cons rest.head? hsat
    omega
  | keep prev c rest out hnone hdec ih =>
    intro prevV hinv hU pre cons rest2 hsplit hsat
    cases pre with
    | nil =>
      simp only [List.nil_append] at hsplit
      have hdec0 : SubDecomp re prev (c :: rest) (c :: out) :=
        SubDecomp.keep prev c rest out hnone hdec
      obtain ⟨restU, hu, hsatU⟩ := core_transfer re P hlead hminre hPbr1 hPmin hPshape
        prev prevV (c :: rest) (c :: out) hdec0 hinv cons rest2 hsplit hsat
      rcases hU with hPre | hNM
      · subst hPre
        exact matchItems_complete P prev (c :: rest) cons restU hu hsatU hnone
      · exact hNM [] cons restU hu hsatU
    | cons c' pre' =>
      simp only [List.cons_append] at hsplit
      injection hsplit with hc hout
      subst hc
      have hnm_out : NoMatchC P (some c) out := by
        apply ih (some c)
        · intro _
          exact Or.inl rfl
        · rcases hU with hPre | hNM
          · exact Or.inl hPre
          · exact Or.inr (noMatchC_cons P prev c rest hNM)
      refine hnm_out pre' cons rest2 hout ?_
      rw [prevAfter_cons] at hsat
      exact hsat
  | repl prev c rest p' rem out hmatch hlen2 hdec ih =>
    intro prevV hinv hU pre cons rest2 hsplit hsat
    obtain ⟨chunk, huc, hsatc, hp'⟩ := matchItems_sound re prev (c :: rest) p' rem hmatch
    have hconsne : cons ≠ [] := sat_ne_nil P hPmin _ cons rest2.head? hsat
    have hbr1 : '[' ∉ cons := sat_not_mem P '[' hPbr1 _ cons rest2.head? hsat
    have hbr2 : ']' ∉ cons := sat_not_mem P ']' hPbr2 _ cons rest2.head? hsat
    have hnm_out : NoMatchC P (some ']') out := by
      apply ih (some ']')
      · intro hbnd
        right
        refine ⟨rfl, ?_⟩
        have htr := sat_trailing_bnd re prev chunk rem.head? (hPreTrail hbnd) hsatc
        rw [← hp'] at htr
        cases hw1 : isWordO p' with
        | false => exact Or.inl rfl
        | true =>
          right
          rw [hw1] at htr
          simpa using htr
      · rcases hU with hPre | hNM
        · exact Or.inl hPre
        · right
          rw [huc] at hNM
          rw [hp']
          exact noMatchC_append_left P prev chunk rem hNM
    rw [List.append_assoc] at hsplit
    rcases List.append_eq_append_iff.mp hsplit with ⟨t, hpre, hout⟩ | ⟨t, hmk, hX⟩
    · -- the match lies in the tail of the output, past the fresh marker
      refine hnm_out t cons rest2
        (by rw [hout]; exact (List.append_assoc t cons rest2).symm) ?_
      have hctx : prevAfter prevV pre = prevAfter (some ']') t := by
        rw [hpre, prevAfter_append, prevAfter_markerL]
      rw [hctx] at hsat
      exact hsat
    · rcases List.append_eq_append_iff.mp hX with ⟨w, ht, hrest2⟩ | ⟨w, hcons, hout2⟩
      · -- the match lies inside the fresh marker
        rw [ht] at hmk
        cases pre with
        | nil =>
          simp only [List.nil_append] at hmk
          cases hcc : cons with
          | nil => exact absurd hcc hconsne
          | cons f cons' =>
            rw [hcc] at hmk
            rw [markerL_eq, List.cons_append] at hmk
            injection hmk with hf _
            exact hbr1 (by rw [hcc, ← hf]; exact List.mem_cons_self _ _)
        | cons c0 pre' =>
          rw [markerL_eq, List.cons_append] at hmk
          injection hmk with hc0 hcore
          cases w with
          | nil =>
            rw [List.append_nil] at hcore
            exact hbr2 (rbracket_mem_coreR_suffix pre' cons hcore hconsne)
          | cons w0 w' =>
            refine hPcore pre' cons (w0 :: w')
              (by rw [hcore]; exact (List.append_assoc pre' cons (w0 :: w')).symm) ?_
            have hctx : prevAfter prevV (c0 :: pre') = prevAfter (some '[') pre' := by
              rw [← hc0, prevAfter_cons]
            have hnxt : rest2.head? = (w0 :: w').head? := by
              rw [hrest2]
              rfl
            rw [hctx, hnxt] at hsat
            exact hsat
      · -- the match either starts exactly past the marker or would
        -- swallow a bracket
        cases t with
        | nil =>
          rw [List.append_nil] at hmk
          rw [List.nil_append] at hcons
          refine hnm_out [] cons rest2 (by rw [hout2, ← hcons]; rfl) ?_
          have hctx : prevAfter prevV pre = some ']' := by
            rw [← hmk]
            exact prevAfter_markerL prevV
          rw [hctx] at hsat
          exact hsat
        | cons t0 t' =>
          have hmem : ']' ∈ (t0 :: t') := rbracket_mem_marker_suffix pre (t0 :: t') hmk (by simp)
          exact hbr2 (by rw [hcons]; exact List.mem_append.mpr (Or.inl hmem))

/-! ### The seven patterns satisfy the side conditions -/

theorem noMatchC_of_missing (P : List RItem) (p : Char → Bool) (lo : Nat) (hi : Option Nat)
    (hmem : RItem.cls p lo hi ∈ P) (hlo : 1 ≤ lo) (s : List Char)
    (hnone : ∀ c ∈ s, p c = false) (prev : Option Char) : NoMatchC P prev s := by
  intro pre cons rest hsplit hsat
  obtain ⟨c, hc, hpc⟩ := sat_exists_char P _ cons rest.head? p lo hi hmem hlo hsat
  have hcs : c ∈ s := by
    rw [hsplit]
    exact List.mem_append.mpr (Or.inl (List.mem_append.mpr (Or.inr hc)))
  rw [hnone c hcs] at hpc
  exact Bool.noConfusion hpc

theorem patOk_phone1 : PatOk phonePattern1 := by
  refine ⟨by decide, by decide, by decide, ?_, ?_, ?_⟩
  · refine noMatchC_of_missing phonePattern1 (fun c => c = '+') 1 (some 1)
      ?_ (Nat.le_refl 1) coreR (by decide) (some '[')
    exact List.mem_cons_self _ _
  · left
    intro it hit
    simp only [phonePattern1, List.mem_cons, List.not_mem_nil, or_false] at hit
    rcases hit with h|h|h|h|h|h|h|h <;> subst h <;> simp
  · right
    refine ⟨(fun c => c = '+'), 1, some 1, _, rfl, Nat.le_refl 1, ?_⟩
    intro c h
    have hc : c = '+' := of_decide_eq_true h
    rw [hc]
    decide

theorem patOk_phone2 : PatOk phonePattern2 := by
  refine ⟨by decide, by decide, by decide, ?_, ?_, ?_⟩
  · refine noMatchC_of_missing phonePattern2 (fun c => c = '(') 1 (some 1)
      ?_ (Nat.le_refl 1) coreR (by decide) (some '[')
    exact List.mem_cons_self _ _
  · left
    intro it hit
    simp only [phonePattern2, List.mem_cons, List.not_mem_nil, or_false] at hit
    rcases hit with h|h|h|h|h|h|h <;> subst h <;> simp
  · right
    refine ⟨(fun c => c = '('), 1, some 1, _, rfl, Nat.le_refl 1, ?_⟩
    intro c h
    have hc : c = '(' := of_decide_eq_true h
    rw [hc]
    decide

theorem patOk_phone3 : PatOk phonePattern3 := by
  refine ⟨by decide, by decide, by decide, ?_, ?_, ?_⟩
  · refine noMatchC_of_missing phonePattern3 isDigitA 3 (some 3)
      ?_ (by omega) coreR (by decide) (some '[')
    exact List.mem_cons_of_mem _ (List.mem_cons_self _ _)
  · exact Or.inr ⟨rfl, rfl⟩
  · exact Or.inl ⟨_, rfl⟩

theorem patOk_phone4 : PatOk phonePattern4 := by
  refine ⟨by decide, by decide, by decide, ?_, ?_, ?_⟩
  · refine noMatchC_of_missing phonePattern4 isDigitA 3 (some 3)
      ?_ (by omega) coreR (by decide) (some '[')
    exact List.mem_cons_of_mem _ (List.mem_cons_self _ _)
  · exact Or.inr ⟨rfl, rfl⟩
  · exact Or.inl ⟨_, rfl⟩

theorem patOk_ssn : PatOk ssnPattern := by
  refine ⟨by decide, by decide, by decide, ?_, ?_, ?_⟩
  · refine noMatchC_of_missing ssnPattern isDigitA 3 (some 3)
      ?_ (by omega) coreR (by decide) (some '[')
    exact List.mem_cons_of_mem _ (List.mem_cons_self _ _)
  · exact Or.inr ⟨rfl, rfl⟩
  · exact Or.inl ⟨_, rfl⟩

theorem patOk_email : PatOk emailPattern := by
  refine ⟨by decide, by decide, by decide, ?_, ?_, ?_⟩
  · refine noMatchC_of_missing emailPattern (fun c => c = '@') 1 (some 1)
      ?_ (Nat.le_refl 1) coreR (by decide) (some '[')
    exact List.mem_cons_of_mem _ (List.mem_cons_of_mem _ (List.mem_cons_self _ _))
  · exact Or.inr ⟨rfl, rfl⟩
  · exact Or.inl ⟨_, rfl⟩

theorem patOk_cc : PatOk ccPattern := by
  refine ⟨by decide, by decide, by decide, ?_, ?_, ?_⟩
  · refine noMatchC_of_missing ccPattern isDigitA 4 (some 4)
      ?_ (by omega) coreR (by decide) (some '[')
    exact List.mem_cons_of_mem _ (List.mem_cons_self _ _)
  · exact Or.inr ⟨rfl, rfl⟩
  · exact Or.inl ⟨_, rfl⟩

theorem phone1_head_ne : ¬ phonePattern1.head? = some RItem.bnd := by
  intro h
  simp [phonePattern1] at h

theorem phone2_head_ne : ¬ phonePattern2.head? = some RItem.bnd := by
  intro h
  simp [phonePattern2] at h

theorem patOk_self_trail (P : List RItem) (hP : PatOk P) :
    P.head? = some RItem.bnd → P.getLast? = some RItem.bnd := by
  intro hh
  rcases hP.2.2.2.2.1 with hfree | ⟨_, ht⟩
  · exfalso
    cases P with
    | nil => exact Option.noConfusion hh
    | cons it P' =>
      injection hh with hh'
      exact hfree it (List.mem_cons_self _ _) hh'
  · exact ht

/-! ### Chaining the passes -/

/-- One pass of `re` over `s` leaves no match of `P` in its output, when
`P` is `re` itself or already had no match in `s`. -/
theorem pass_preserve (re P : List RItem) (hre : PatOk re) (hP : PatOk P)
    (hTrail : P.head? = some RItem.bnd → re.getLast? = some RItem.bnd)
    (s : List Char) (hU : P = re ∨ NoMatchC P none s) :
    NoMatchC P none (subL re s) := by
  have hdec : SubDecomp re none s (subA re none s) :=
    subA_decomp re hre.2.2.1 none s
  exact subDecomp_noMatch re P hre.2.2.2.2.2 hre.2.2.1 hP.1 hP.2.1 hP.2.2.1
    hP.2.2.2.1 hP.2.2.2.2.1 hTrail none s (subA re none s) hdec none
    (fun _ => Or.inl rfl) hU

/-- Pushing a no-match fact through a sequence of later passes. -/
theorem chain_preserve (P : List RItem) (hP : PatOk P) :
    ∀ passes : List (List RItem),
      (∀ re ∈ passes, PatOk re ∧
        (P.head? = some RItem.bnd → re.getLast? = some RItem.bnd)) →
      ∀ s, NoMatchC P none s →
        NoMatchC P none (passes.foldl (fun acc re => subL re acc) s) := by
  intro passes
  induction passes with
  | nil => intro _ s h; exact h
  | cons re rest ih =>
    intro hconds s h
    have hre := hconds re (List.mem_cons_self _ _)
    simp only [List.foldl_cons]
    exact ih (fun r hr => hconds r (List.mem_cons_of_mem _ hr)) (subL re s)
      (pass_preserve re P hre.1 hP hre.2 s (Or.inr h))

/-- A string in which none of the given patterns matches is left
unchanged by folding their substitution passes over it. -/
theorem foldl_subL_id (u : List Char) :
    ∀ passes : List (List RItem), (∀ re ∈ passes, NoMatchC re none u) →
      passes.foldl (fun acc re => subL re acc) u = u := by
  intro passes
  induction passes with
  | nil => intro _; rfl
  | cons re rest ih =>
    intro h
    simp only [List.foldl_cons]
    have hid : subL re u = u :=
      subA_id_of_noMatch re none u (h re (List.mem_cons_self _ _))
    rw [hid]
    exact ih (fun r hr => h r (List.mem_cons_of_mem _ hr))

/-- The final output of the seven passes contains no match of any of the
seven patterns. -/
theorem redactL_noMatch (s : List Char) :
    ∀ P ∈ allPatterns, NoMatchC P none (redactL s) := by
  intro P hP
  have hall : redactL s = allPatterns.foldl (fun acc re => subL re acc) s := rfl
  simp only [allPatterns, List.mem_cons, List.not_mem_nil, or_false] at hP
  rcases hP with h|h|h|h|h|h|h <;> subst h <;> rw [hall]
  · -- phone shape 1, established by pass 1, preserved by passes 2..7
    have est : NoMatchC phonePattern1 none (subL phonePattern1 s) :=
      pass_preserve phonePattern1 phonePattern1 patOk_phone1 patOk_phone1
        (patOk_self_trail phonePattern1 patOk_phone1) s (Or.inl rfl)
    have := chain_preserve phonePattern1 patOk_phone1
      [phonePattern2, phonePattern3, phonePattern4, ssnPattern, emailPattern, ccPattern]
      (by
        intro re hre
        simp only [List.mem_cons, List.not_mem_nil, or_false] at hre
        rcases hre with h|h|h|h|h|h <;> subst h <;>
          exact ⟨by first
            | exact patOk_phone2 | exact patOk_phone3 | exact patOk_phone4
            | exact patOk_ssn | exact patOk_email | exact patOk_cc,
            fun hh => absurd hh phone1_head_ne⟩)
      (subL phonePattern1 s) est
    simpa [allPatterns, List.foldl_cons] using this
  · have est : NoMatchC phonePattern2 none (subL phonePattern2 (subL phonePattern1 s)) :=
      pass_preserve phonePattern2 phonePattern2 patOk_phone2 patOk_phone2
        (patOk_self_trail phonePattern2 patOk_phone2) _ (Or.inl rfl)
    have := chain_preserve phonePattern2 patOk_phone2
      [phonePattern3, phonePattern4, ssnPattern, emailPattern, ccPattern]
      (by
        intro re hre
        simp only [List.mem_cons, List.not_mem_nil, or_false] at hre
        rcases hre with h|h|h|h|h <;> subst h <;>
          exact ⟨by first
            | exact patOk_phone3 | exact patOk_phone4
            | exact patOk_ssn | exact patOk_email | exact patOk_cc,
            fun hh => absurd hh phone2_head_ne⟩)
      _ est
    simpa [allPatterns, List.foldl_cons] using this
  · have est : NoMatchC phonePattern3 none
        (subL phonePattern3 (subL phonePattern2 (subL phonePattern1 s))) :=
      pass_preserve phonePattern3 phonePattern3 patOk_phone3 patOk_phone3
        (patOk_self_trail phonePattern3 patOk_phone3) _ (Or.inl rfl)
    have := chain_preserve phonePattern3 patOk_phone3
      [phonePattern4, ssnPattern, emailPattern, ccPattern]
      (by
        intro re hre
        simp only [List.mem_cons, List.not_mem_nil, or_false] at hre
        rcases hre with h|h|h|h <;> subst h <;>
          exact ⟨by first
            | exact patOk_phone4 | exact patOk_ssn | exact patOk_email | exact patOk_cc,
            fun _ => rfl⟩)
      _ est
    simpa [allPatterns, List.foldl_cons] using this
  · have est : NoMatchC phonePattern4 none
        (subL phonePattern4 (subL phonePattern3 (subL phonePattern2 (subL phonePattern1 s)))) :=
      pass_preserve phonePattern4 phonePattern4 patOk_phone4 patOk_phone4
        (patOk_self_trail phonePattern4 patOk_phone4) _ (Or.inl rfl)
    have := chain_preserve phonePattern4 patOk_phone4
      [ssnPattern, emailPattern, ccPattern]
      (by
        intro re hre
        simp only [List.mem_cons, List.not_mem_nil, or_false] at hre
        rcases hre with h|h|h <;> subst h <;>
          exact ⟨by first
            | exact patOk_ssn | exact patOk_email | exact patOk_cc,
            fun _ => rfl⟩)
      _ est
    simpa [allPatterns, List.foldl_cons] using this
  · have est : NoMatchC ssnPattern none
        (subL ssnPattern (subL phonePattern4 (subL phonePattern3
          (subL phonePattern2 (subL phonePattern1 s))))) :=
      pass_preserve ssnPattern ssnPattern patOk_ssn patOk_ssn
        (patOk_self_trail ssnPattern patOk_ssn) _ (Or.inl rfl)
    have := chain_preserve ssnPattern patOk_ssn [emailPattern, ccPattern]
      (by
        intro re hre
        simp only [List.mem_cons, List.not_mem_nil, or_false] at hre
        rcases hre with h|h <;> subst h <;>
          exact ⟨by first | exact patOk_email | exact patOk_cc, fun _ => rfl⟩)
      _ est
    simpa [allPatterns, List.foldl_cons] using this
  · have est : NoMatchC emailPattern none
        (subL emailPattern (subL ssnPattern (subL phonePattern4 (subL phonePattern3
          (subL phonePattern2 (subL phonePattern1 s)))))) :=
      pass_preserve emailPattern emailPattern patOk_email patOk_email
        (patOk_self_trail emailPattern patOk_email) _ (Or.inl rfl)
    have := chain_preserve emailPattern patOk_email [ccPattern]
      (by
        intro re hre
        simp only [List.mem_cons, List.not_mem_nil, or_false] at hre
        subst hre
        exact ⟨patOk_cc, fun _ => rfl⟩)
      _ est
    simpa [allPatterns, List.foldl_cons] using this
  · have est : NoMatchC ccPattern none
        (subL ccPattern (subL emailPattern (subL ssnPattern (subL phonePattern4
          (subL phonePattern3 (subL phonePattern2 (subL phonePattern1 s))))))) :=
      pass_preserve ccPattern ccPattern patOk_cc patOk_cc
        (patOk_self_trail ccPattern patOk_cc) _ (Or.inl rfl)
    simpa [allPatterns, List.foldl_cons] using est

/-- The character-list form of the idempotence statement. -/
theorem redactL_idem (s : List Char) : redactL (redactL s) = redactL s := by
  have h := redactL_noMatch s
  exact foldl_subL_id (redactL s) allPatterns h

/-! ### Redaction claims (C1, C6) -/

/-- Claim C1: redaction is idempotent.  For every text, applying
`redact_sensitive_data` twice yields the same result as applying it
once; in particular no pattern ever matches the redacted output, so the
inserted marker is never re-matched by a second run. -/
theorem redact_sensitive_data_idempotent (t : String) :
    redact_sensitive_data (redact_sensitive_data t) = redact_sensitive_data t := by
  by_cases ht : t = ""
  · subst ht
    rfl
  · have h1 : redact_sensitive_data t = ⟨redactL t.data⟩ := by
      simp [redact_sensitive_data, ht]
    rw [h1]
    by_cases h2 : (⟨redactL t.data⟩ : String) = ""
    · simp [redact_sensitive_data, h2]
    · simp only [redact_sensitive_data, if_neg h2]
      show (⟨redactL (redactL t.data)⟩ : String) = _
      rw [redactL_idem t.data]

/-- Claim C6: redaction applies the four phone passes, the SSN pass, the
email pass and the credit card pass in that fixed order; each pass
decomposes its input into kept characters (at which the matcher fails)
and matched chunks replaced by the marker; text in which no pattern
matches is returned unchanged, and empty or absent input is returned
unchanged. -/
theorem redact_structure :
    (redactOpt none = none ∧ redact_sensitive_data "" = "") ∧
    (∀ t : String, t ≠ "" → (redact_sensitive_data t).data =
      subL ccPattern (subL emailPattern (subL ssnPattern (subL phonePattern4
        (subL phonePattern3 (subL phonePattern2 (subL phonePattern1 t.data))))))) ∧
    (∀ re ∈ allPatterns, ∀ s : List Char, SubDecomp re none s (subL re s)) ∧
    (∀ t : String, (∀ re ∈ allPatterns, NoMatchC re none t.data) →
      redact_sensitive_data t = t) := by
  refine ⟨⟨rfl, rfl⟩, ?_, ?_, ?_⟩
  · intro t ht
    simp only [redact_sensitive_data, if_neg ht]
    rfl
  · intro re hre s
    simp only [allPatterns, List.mem_cons, List.not_mem_nil, or_false] at hre
    rcases hre with h|h|h|h|h|h|h <;> subst h
    · exact subA_decomp phonePattern1 patOk_phone1.2.2.1 none s
    · exact subA_decomp phonePattern2 patOk_phone2.2.2.1 none s
    · exact subA_decomp phonePattern3 patOk_phone3.2.2.1 none s
    · exact subA_decomp phonePattern4 patOk_phone4.2.2.1 none s
    · exact subA_decomp ssnPattern patOk_ssn.2.2.1 none s
    · exact subA_decomp emailPattern patOk_email.2.2.1 none s
    · exact subA_decomp ccPattern patOk_cc.2.2.1 none s
  · intro t h
    by_cases ht : t = ""
    · subst ht
      rfl
    · simp only [redact_sensitive_data, if_neg ht]
      have hid : redactL t.data = t.data := foldl_subL_id t.data allPatterns h
      show (⟨redactL t.data⟩ : String) = t
      rw [hid]

/-- Witness for claim C6: a text containing no digit, plus sign,
parenthesis or at sign matches none of the patterns and is returned
unchanged. -/
theorem redact_structure_witness :
    redact_sensitive_data "hello world" = "hello world" := by
  apply redact_structure.2.2.2
  intro re hre
  simp only [allPatterns, List.mem_cons, List.not_mem_nil, or_false] at hre
  rcases hre with h|h|h|h|h|h|h <;> subst h
  · exact noMatchC_of_missing phonePattern1 (fun c => c = '+') 1 (some 1)
      (List.mem_cons_self _ _) (Nat.le_refl 1) _ (by decide) none
  · exact noMatchC_of_missing phonePattern2 (fun c => c = '(') 1 (some 1)
      (List.mem_cons_self _ _) (Nat.le_refl 1) _ (by decide) none
  · exact noMatchC_of_missing phonePattern3 isDigitA 3 (some 3)
      (List.mem_cons_of_mem _ (List.mem_cons_self _ _)) (by omega) _ (by decide) none
  · exact noMatchC_of_missing phonePattern4 isDigitA 3 (some 3)
      (List.mem_cons_of_mem _ (List.mem_cons_self _ _)) (by omega) _ (by decide) none
  · exact noMatchC_of_missing ssnPattern isDigitA 3 (some 3)
      (List.mem_cons_of_mem _ (List.mem_cons_self _ _)) (by omega) _ (by decide) none
  · exact noMatchC_of_missing emailPattern (fun c => c = '@') 1 (some 1)
      (List.mem_cons_of_mem _ (List.mem_cons_of_mem _ (List.mem_cons_self _ _)))
      (Nat.le_refl 1) _ (by decide) none
  · exact noMatchC_of_missing ccPattern isDigitA 4 (some 4)
      (List.mem_cons_of_mem _ (List.mem_cons_self _ _)) (by omega) _ (by decide) none
